import Mathlib

set_option maxHeartbeats 1000000
set_option maxRecDepth 10000

namespace CemuShader

/-! Shallow embedding of the shader-cache container core of
`src/shaderutils.py` (class `ShaderCache` and the container operations the
presentation layer performs on it).  Byte buffers are `List Nat` of byte
values; multi-byte integers use the format's fixed little-endian layout
(the `struct` format strings `=QQQII`, `=IIQQI100x`, `=IIQQ`).  Fallible
operations (Python `struct.error`, `AssertionError`, `KeyError`, the
serialize-time consistency `assert`) return `Except CacheError`. -/

def FILECACHE_MAGIC : Nat := 0x8371b694
def FILECACHE_MAGIC_V2 : Nat := 0x8371b695
def SHADER_HEADER_MAGIC : Nat := 0xc8d47908
def FILECACHE_FILETABLE_NAME1 : Nat := 0xEFEFEFEFEFEFEFEF
def FILECACHE_FILETABLE_NAME2 : Nat := 0xFEFEFEFEFEFEFEFE
def FILECACHE_FILETABLE_FREE_NAME : Nat := 0

def ENTRY_SIZE : Nat := 32
def FILECACHE_HEADER_RESV : Nat := 128
def SHADER_HEADER_SIZE : Nat := 24

def sentinelKey : Nat × Nat := (FILECACHE_FILETABLE_NAME1, FILECACHE_FILETABLE_NAME2)

def freeKey : Nat × Nat := (FILECACHE_FILETABLE_FREE_NAME, FILECACHE_FILETABLE_FREE_NAME)

/-- Little-endian encoding of a value into `w` bytes (the behaviour of
`struct.pack` on an in-range unsigned value; theorems carry explicit
range bounds since the Python struct module rejects out-of-range input). -/
def toLE : Nat → Nat → List Nat
  | 0, _ => []
  | w + 1, v => v % 256 :: toLE w (v / 256)

/-- Little-endian decoding of a byte list. -/
def fromLE : List Nat → Nat
  | [] => 0
  | b :: rest => b + 256 * fromLE rest

/-- `d[off : off+len]` — Python list/bytes slicing: silently truncates when
the range leaves the buffer, never fails. -/
def slice (d : List Nat) (off len : Nat) : List Nat := (d.drop off).take len

/-- One file-table record (`pack_entry`/`unpack_entry` field set), plus the
`data` payload attached by `ShaderCache.__init__` ("split the data") /
mutations; `none` models a dict without the `'data'` key or with `None`. -/
structure Entry where
  name1 : Nat
  name2 : Nat
  file_offset : Nat
  file_size : Nat
  reserved : Nat
  data : Option (List Nat)
deriving DecidableEq, Repr

/-- The 128-byte header record (`pack_header`/`unpack_header` field set). -/
structure Header where
  magic : Nat
  extra_version : Nat
  data_offset : Nat
  file_table_offset : Nat
  file_table_size : Nat
deriving DecidableEq, Repr

/-- `struct.Struct('=QQQII').pack` of an entry (32 bytes). -/
def pack_entry (e : Entry) : List Nat :=
  toLE 8 e.name1 ++ toLE 8 e.name2 ++ toLE 8 e.file_offset ++
    toLE 4 e.file_size ++ toLE 4 e.reserved

/-- `unpack_entry(data, offset)`: `struct.unpack_from` fails on a buffer
with fewer than 32 bytes past `offset`. The decoded dict has no payload. -/
def unpack_entry (d : List Nat) (off : Nat) : Option Entry :=
  if off + 32 ≤ d.length then
    some { name1 := fromLE (slice d off 8)
           name2 := fromLE (slice d (off + 8) 8)
           file_offset := fromLE (slice d (off + 16) 8)
           file_size := fromLE (slice d (off + 24) 4)
           reserved := fromLE (slice d (off + 28) 4)
           data := none }
  else none

/-- `struct.Struct('=IIQQI100x').pack` of the header (128 bytes,
zero padding). -/
def pack_header (h : Header) : List Nat :=
  toLE 4 h.magic ++ toLE 4 h.extra_version ++ toLE 8 h.data_offset ++
    toLE 8 h.file_table_offset ++ toLE 4 h.file_table_size ++ List.replicate 100 0

/-- `unpack_header(data)`: fails on a buffer shorter than 128 bytes. -/
def unpack_header (d : List Nat) : Option Header :=
  if 128 ≤ d.length then
    some { magic := fromLE (slice d 0 4)
           extra_version := fromLE (slice d 4 4)
           data_offset := fromLE (slice d 8 8)
           file_table_offset := fromLE (slice d 16 8)
           file_table_size := fromLE (slice d 24 4) }
  else none

/-- The 24-byte shader-unit header (`struct.Struct('=IIQQ')`). -/
structure ShaderHeader where
  magic : Nat
  type : Nat
  name1 : Nat
  name2 : Nat
deriving DecidableEq, Repr

/-- `unpack_shader_header(data)`: `unpack_from` on a 24-byte struct,
fails when the payload holds fewer than 24 bytes. -/
def unpack_shader_header (d : List Nat) : Option ShaderHeader :=
  if 24 ≤ d.length then
    some { magic := fromLE (slice d 0 4)
           type := fromLE (slice d 4 4)
           name1 := fromLE (slice d 8 8)
           name2 := fromLE (slice d 16 8) }
  else none

/-- Failure modes of the container operations: `formatError` stands for the
`struct.error`/`AssertionError` raised while decoding a buffer,
`keyError` for the sentinel lookup failing in `update_header` or `write`,
`consistencyError` for the serialize-time payload-length `assert`. -/
inductive CacheError where
  | formatError
  | keyError
  | consistencyError
deriving DecidableEq, Repr

/-- The in-memory container: header plus the ordered `(name1, name2) ↦ entry`
mapping (`collections.OrderedDict`, modelled as an association list with
distinct keys), plus the `original_size` bookkeeping field. -/
structure ShaderCache where
  original_size : Nat
  header : Header
  entries : List ((Nat × Nat) × Entry)
deriving DecidableEq, Repr

/-- `d[k] = v` on an ordered dict: replaces in place if the key exists
(keeping its position), otherwise appends. -/
def odInsert (k : Nat × Nat) (v : Entry) :
    List ((Nat × Nat) × Entry) → List ((Nat × Nat) × Entry)
  | [] => [(k, v)]
  | p :: rest => if p.1 = k then (k, v) :: rest else p :: odInsert k v rest

/-- `OrderedDict(pairs)`: first occurrence fixes the position, the last
value for a key wins. -/
def odOfList (l : List ((Nat × Nat) × Entry)) : List ((Nat × Nat) × Entry) :=
  l.foldl (fun acc p => odInsert p.1 p.2 acc) []

/-- `d.update(other)` on ordered dicts. -/
def odUpdate (m other : List ((Nat × Nat) × Entry)) : List ((Nat × Nat) × Entry) :=
  other.foldl (fun acc p => odInsert p.1 p.2 acc) m

/-- `k in d` for the entry mapping. -/
def hasKey (k : Nat × Nat) (m : List ((Nat × Nat) × Entry)) : Bool :=
  m.any (fun p => p.1 = k)

/-- `d[k]` as an option. -/
def alookup (k : Nat × Nat) : List ((Nat × Nat) × Entry) → Option Entry
  | [] => none
  | p :: rest => if p.1 = k then some p.2 else alookup k rest

/-- Sum of the declared `file_size` fields of a mapping. -/
def sumFS (m : List ((Nat × Nat) × Entry)) : Nat :=
  (m.map (fun p => p.2.file_size)).sum

/-- The pure state transformation of `ShaderCache.update_header` (the
Python method additionally raises `KeyError` when the sentinel key is
absent, see `update_header`): normalizes `file_table_offset` to 0,
recomputes `file_table_size`, and resets the sentinel entry's
`file_offset`/`file_size` while clearing its cached payload. -/
def updateHeaderFn (c : ShaderCache) : ShaderCache :=
  { c with
    header := { c.header with
                file_table_offset := 0
                file_table_size := 32 * c.entries.length }
    entries := c.entries.map (fun p =>
      if p.1 = sentinelKey then
        (p.1, { p.2 with
                file_offset := 0
                file_size := 32 * c.entries.length
                data := none })
      else p) }

/-- `ShaderCache.update_header`: `self.entries[FILECACHE_FILETABLE_NAME1,
FILECACHE_FILETABLE_NAME2]` raises `KeyError` when the sentinel identifier
is not in the mapping. -/
def update_header (c : ShaderCache) : Except CacheError ShaderCache :=
  if hasKey sentinelKey c.entries then .ok (updateHeaderFn c)
  else .error .keyError

/-- `ShaderCache.calc_size`. -/
def calc_size (c : ShaderCache) : Nat := 128 + sumFS c.entries

/-- The fresh-construction state of `ShaderCache.__init__(data=None)` just
before its closing `update_header` call (the Python header dict does not
yet carry `file_table_offset`/`file_table_size`, and the sentinel entry
does not yet carry `file_offset`/`file_size`/`data`; the zero/`none`
placeholders below are all overwritten by `updateHeaderFn`). -/
def freshRaw : ShaderCache :=
  { original_size := 0
    header := { magic := FILECACHE_MAGIC_V2
                extra_version := 1
                data_offset := FILECACHE_HEADER_RESV
                file_table_offset := 0
                file_table_size := 0 }
    entries := [(sentinelKey,
      { name1 := FILECACHE_FILETABLE_NAME1
        name2 := FILECACHE_FILETABLE_NAME2
        file_offset := 0
        file_size := 0
        reserved := 0
        data := none })] }

/-- `ShaderCache()` — fresh construction, including the closing
`update_header` (which always succeeds here: the sentinel is present). -/
def fresh : ShaderCache := updateHeaderFn freshRaw

/-- The insertion the callers perform: `cache.entries[e['name1'], e['name2']] = e`. -/
def insertEntry (c : ShaderCache) (e : Entry) : ShaderCache :=
  { c with entries := odInsert (e.name1, e.name2) e c.entries }

/-- A sequence of such insertions. -/
def insertAll (c : ShaderCache) (l : List Entry) : ShaderCache :=
  l.foldl insertEntry c

/-- The offset-assigning walk of `ShaderCache.write`: each entry's
`file_offset` is set to the running byte counter, which advances by
`file_size`. -/
def assignOffsets : Nat → List ((Nat × Nat) × Entry) → List ((Nat × Nat) × Entry)
  | _, [] => []
  | off, p :: rest =>
      (p.1, { p.2 with file_offset := off }) :: assignOffsets (off + p.2.file_size) rest

/-- The accumulated `table_data` of `ShaderCache.write`: the packed records
of all entries, in mapping order. -/
def tableBytes (m : List ((Nat × Nat) × Entry)) : List Nat :=
  (m.map (fun p => pack_entry p.2)).flatten

/-- `self.entries[sentinel]['data'] = table_data`. -/
def setSentinelData (td : List Nat) (m : List ((Nat × Nat) × Entry)) :
    List ((Nat × Nat) × Entry) :=
  m.map (fun p => if p.1 = sentinelKey then (p.1, { p.2 with data := some td }) else p)

/-- The payload-emitting loop of `ShaderCache.write`: returns the bytes
written to `f` before the loop finishes or its per-entry
`assert len(entry['data']) == entry['file_size']` fails (second component
`false` on failure; a missing payload also aborts the loop there). -/
def writeData : List ((Nat × Nat) × Entry) → List Nat × Bool
  | [] => ([], true)
  | p :: rest =>
    match p.2.data with
    | some d =>
        if d.length = p.2.file_size then
          (d ++ (writeData rest).1, (writeData rest).2)
        else ([], false)
    | none => ([], false)

/-- `ShaderCache.write(f)`: returns the bytes emitted to `f` (also on
failure, since Python has already streamed them) together with the
post-write container state or the raised error. -/
def write (c : ShaderCache) : List Nat × Except CacheError ShaderCache :=
  let hb := pack_header c.header
  let ents1 := assignOffsets 0 c.entries
  let td := tableBytes ents1
  if hasKey sentinelKey ents1 then
    let ents2 := setSentinelData td ents1
    let r := writeData ents2
    if r.2 then
      (hb ++ r.1,
       .ok { original_size := 128 + sumFS ents2, header := c.header, entries := ents2 })
    else (hb ++ r.1, .error .consistencyError)
  else (hb, .error .keyError)

/-- The table-reading generator of `ShaderCache.__init__`:
`unpack_entry(data, offset + ENTRY_SIZE * n) for n in range(cnt)`; any
record falling off the buffer raises there. -/
def readEntries (d : List Nat) (off : Nat) : Nat → Option (List Entry)
  | 0 => some []
  | cnt + 1 =>
    match unpack_entry d off, readEntries d (off + 32) cnt with
    | some e, some es => some (e :: es)
    | _, _ => none

/-- Attach the keyed payload slices: `entry['data'] =
data[data_offset + file_offset : ... + file_size]` for every entry.
Plain Python slicing: no bounds check, a range leaving the buffer silently
yields a short (possibly empty) payload. -/
def attachPayloads (d : List Nat) (data_offset : Nat)
    (m : List ((Nat × Nat) × Entry)) : List ((Nat × Nat) × Entry) :=
  m.map (fun p =>
    (p.1, { p.2 with data := some (slice d (data_offset + p.2.file_offset) p.2.file_size) }))

/-- `ShaderCache.__init__(data)` up to (excluding) the final
`update_header` call: header decode and checks, table decode, free-slot
drop, payload split. -/
def loadRaw (d : List Nat) : Except CacheError ShaderCache :=
  match unpack_header d with
  | none => .error .formatError
  | some h =>
    if h.magic = FILECACHE_MAGIC_V2 then
      if h.file_table_size % 32 = 0 then
        match readEntries d (h.data_offset + h.file_table_offset) (h.file_table_size / 32) with
        | none => .error .formatError
        | some es =>
          let m0 := odOfList (es.map (fun e => ((e.name1, e.name2), e)))
          let m1 := m0.filter (fun p => p.1 ≠ freeKey)
          .ok { original_size := d.length
                header := h
                entries := attachPayloads d h.data_offset m1 }
      else .error .formatError
    else .error .formatError

/-- `ShaderCache(data)` — the full load, ending in `update_header`. -/
def load (d : List Nat) : Except CacheError ShaderCache :=
  match loadRaw d with
  | .ok c => update_header c
  | .error e => .error e

/-- Outcome record of the merge operation (counts shown by
`_on_btnmerge`, `noop` = the "nothing to do" early return). -/
structure MergeResult where
  addedCount : Nat
  duplicateCount : Nat
  noop : Bool
deriving DecidableEq, Repr

/-- The merge core of `ShaderUtils._on_btnmerge`, target `t` against the
already-combined source mapping `src` (`all_entries`): computes
`new_keys`/`duplicate_keys`, returns unchanged on an empty `new_keys`,
otherwise copies exactly the new-keyed source entries into the target and
renormalizes via `update_header`.  (Python iterates `new_keys` as a set in
unspecified order; the source order used here fixes one such order, and the
proved properties do not depend on it.) -/
def merge (t : ShaderCache) (src : List ((Nat × Nat) × Entry)) :
    Except CacheError (ShaderCache × MergeResult) :=
  let newList := src.filter (fun p => !hasKey p.1 t.entries)
  let dupList := src.filter (fun p => hasKey p.1 t.entries)
  if newList.length = 0 then
    .ok (t, { addedCount := 0, duplicateCount := dupList.length, noop := true })
  else
    match update_header { t with entries := t.entries ++ newList } with
    | .ok t2 =>
        .ok (t2, { addedCount := newList.length, duplicateCount := dupList.length, noop := false })
    | .error e => .error e

/-- The multi-file branch of `ShaderUtils._on_btnopen`: the first selected
file's container absorbs `entries.update(...)` from each later file in
order, then `update_header` runs once. -/
def openCaches (first : ShaderCache) (rest : List ShaderCache) :
    Except CacheError ShaderCache :=
  update_header
    { first with entries := rest.foldl (fun acc c => odUpdate acc c.entries) first.entries }

/-- Spec-side formulation for the multi-open claim: the entry held by the
last-listed file that contains the key (files listed first-to-last). -/
def lastHolder (k : Nat × Nat) (first : ShaderCache) (rest : List ShaderCache) :
    Option Entry :=
  rest.foldl (fun acc c => match alookup k c.entries with
    | some e => some e
    | none => acc) (alookup k first.entries)

/-- Python's `'{:x}'` digits of a value (lowercase, most significant
first). -/
def hexDigits (v : Nat) : List Char := Nat.toDigits 16 v

/-- Python's `'{:016x}'.format(v)`: lowercase hexadecimal, zero-padded on
the left to at least 16 characters. -/
def hex16 (v : Nat) : String :=
  String.mk (List.replicate (16 - (hexDigits v).length) '0' ++ hexDigits v)

/-- The `shader_type_names` dict. -/
def shader_type_names : List (Nat × String) :=
  [(0, "VERTEX"), (1, "GEOMETRY"), (2, "PIXEL")]

/-- `shader_type_names.get(t, 'UNKNOWN_{t}'.format(t=t))`. -/
def typeLabel (t : Nat) : String :=
  match shader_type_names.lookup t with
  | some s => s
  | none => "UNKNOWN_" ++ toString t

/-- The per-entry filename derivation of `ShaderUtils._on_unpack`
(lines decoding `unpack_shader_header(entry['data'])` and formatting
`'{type}_{name1:016x}_{name2:016x}.bin'`); fails exactly when the decode
fails.  Requires the entry to carry a payload, which every loaded entry
does. -/
def exportFilename (e : Entry) : Except CacheError String :=
  match e.data with
  | none => .error .formatError
  | some d =>
    match unpack_shader_header d with
    | none => .error .formatError
    | some sh =>
        .ok (typeLabel sh.type ++ "_" ++ hex16 sh.name1 ++ "_" ++ hex16 sh.name2 ++ ".bin")

/-- The sentinel entry's payload decoded back as a sequence of 32-byte
Entry records spanning the whole table (used to state the self-describing
fixed-point claims). -/
def sentinelTableDecode (c : ShaderCache) : Option (List Entry) :=
  match alookup sentinelKey c.entries with
  | some e =>
    match e.data with
    | some d => readEntries d 0 c.entries.length
    | none => none
  | none => none

/-- An entry stripped to the fields a table record stores (what decoding
its packed record reproduces: no payload). -/
def metaOf (e : Entry) : Entry := { e with data := none }

/-- All five packed fields of an entry are inside the fixed widths the
format declares for them (u64/u64/u64/u32/u32); `struct.pack` rejects
anything larger. -/
def packOK (e : Entry) : Bool :=
  decide (e.name1 < 2 ^ 64) && decide (e.name2 < 2 ^ 64) &&
    decide (e.file_offset < 2 ^ 64) && decide (e.file_size < 2 ^ 32) &&
    decide (e.reserved < 2 ^ 32)

/-- The in-range bounds for the fields of an entry that survive
serialization unchanged (the `file_offset` is reassigned by the write walk,
so a stale value needs no bound). -/
def packOKBase (e : Entry) : Bool :=
  decide (e.name1 < 2 ^ 64) && decide (e.name2 < 2 ^ 64) &&
    decide (e.file_size < 2 ^ 32) && decide (e.reserved < 2 ^ 32)

/-- Same for the header's packed fields (u32/u32/u64/u64/u32). -/
def headerOK (h : Header) : Bool :=
  decide (h.magic < 2 ^ 32) && decide (h.extra_version < 2 ^ 32) &&
    decide (h.data_offset < 2 ^ 64) && decide (h.file_table_offset < 2 ^ 64) &&
    decide (h.file_table_size < 2 ^ 32)

/-- The entry carries a payload whose length equals its declared size. -/
def dataOKb (e : Entry) : Bool :=
  match e.data with
  | some d => decide (d.length = e.file_size)
  | none => false

/-- The mapping key agrees with the entry's own identifier fields and is
not the reserved free-slot pair. -/
def entryKeyOK (p : (Nat × Nat) × Entry) : Bool :=
  decide (p.1 = (p.2.name1, p.2.name2)) && decide (p.1 ≠ freeKey)

/-- Pairwise distinctness of a key list. -/
def nodupB : List (Nat × Nat) → Bool
  | [] => true
  | k :: rest => (!rest.any (fun x => x = k)) && nodupB rest

/-- The mapping's keys are pairwise distinct (dict semantics). -/
def nodupKeysB (m : List ((Nat × Nat) × Entry)) : Bool :=
  nodupB (m.map Prod.fst)

/-- The first entry of the mapping is the table sentinel. -/
def headSentinelB : List ((Nat × Nat) × Entry) → Bool
  | [] => false
  | p :: _ => decide (p.1 = sentinelKey)

/-- All the serialize-time `assert` needs: the sentinel is present, its
declared size matches the table the walk will build, and every other
entry's payload length matches its declared size.  `update_header`
establishes the sentinel part; the payload part is the container-wide
invariant. -/
def writeReady (c : ShaderCache) : Bool :=
  hasKey sentinelKey c.entries &&
    c.entries.all (fun p =>
      if p.1 = sentinelKey then decide (p.2.file_size = 32 * c.entries.length)
      else dataOKb p.2)

/-- Well-formedness of a normalized container as produced by the
fresh-construction / insertion / `update_header` lifecycle: sentinel-first
ordered mapping with distinct, self-consistent, in-range keys, payloads
present on every non-sentinel entry, normalized header and sentinel
metadata, and a total size that fits the format's u64 offsets. -/
def wfc (c : ShaderCache) : Bool :=
  headSentinelB c.entries &&
    nodupKeysB c.entries &&
    c.entries.all (fun p => packOKBase p.2 && entryKeyOK p) &&
    c.entries.all (fun p => decide (p.1 = sentinelKey) || dataOKb p.2) &&
    (match c.entries with
     | [] => false
     | p :: _ =>
         decide (p.2.file_size = 32 * c.entries.length) &&
           decide (p.2.file_offset = 0) && decide (p.2.data = none)) &&
    decide (c.header.magic = FILECACHE_MAGIC_V2) &&
    decide (c.header.extra_version < 2 ^ 32) &&
    decide (c.header.data_offset = 128) &&
    decide (c.header.file_table_offset = 0) &&
    decide (c.header.file_table_size = 32 * c.entries.length) &&
    decide (128 + sumFS c.entries < 2 ^ 64)

/-- The payload bytes a successful `write` data loop emits. -/
def joinPayloads (m : List ((Nat × Nat) × Entry)) : List Nat :=
  (m.map (fun p => p.2.data.getD [])).flatten

/-- The entry list as mutated by a successful `write`: offsets assigned by
the running counter, the table bytes stored as the sentinel's payload. -/
def postEnts (c : ShaderCache) : List ((Nat × Nat) × Entry) :=
  setSentinelData (tableBytes (assignOffsets 0 c.entries)) (assignOffsets 0 c.entries)

/-- The byte stream a successful `write` emits. -/
def outBytes (c : ShaderCache) : List Nat :=
  pack_header c.header ++ joinPayloads (postEnts c)

/-- The container state after a successful `write`. -/
def postWrite (c : ShaderCache) : ShaderCache :=
  { original_size := 128 + sumFS (postEnts c), header := c.header, entries := postEnts c }

/-- Clear the sentinel's cached payload (what the closing `update_header`
of a load does to an otherwise fully reconstructed mapping). -/
def clearSentinelData (m : List ((Nat × Nat) × Entry)) : List ((Nat × Nat) × Entry) :=
  m.map (fun p => if p.1 = sentinelKey then (p.1, { p.2 with data := none }) else p)

/-- The container that loading `outBytes c` yields. -/
def loadedOf (c : ShaderCache) : ShaderCache :=
  { original_size := (outBytes c).length
    header := c.header
    entries := clearSentinelData (postEnts c) }

/-- The entries' offsets follow the running byte counter started at `t`. -/
def offsetsRunning : Nat → List ((Nat × Nat) × Entry) → Prop
  | _, [] => True
  | t, p :: rest => p.2.file_offset = t ∧ offsetsRunning (t + p.2.file_size) rest

/-- Conditions on one inserted entry under which the round-trip claim is
proved: identifier fields inside their u64 widths, size/reserved inside
u32, the key not the reserved free-slot pair, and the payload present with
`len(data) == file_size`. -/
def insOK (e : Entry) : Bool :=
  decide (e.name1 < 2 ^ 64) && decide (e.name2 < 2 ^ 64) &&
    decide (e.file_size < 2 ^ 32) && decide (e.reserved < 2 ^ 32) &&
    decide ((e.name1, e.name2) ≠ freeKey) && dataOKb e

/-- The identifier / declared-size / payload view of an entry that the
round-trip claim compares (offsets are recomputed by design). -/
def entryView (p : (Nat × Nat) × Entry) : (Nat × Nat) × Nat × Option (List Nat) :=
  (p.1, p.2.file_size, p.2.data)

/-- That view over the non-sentinel part of a container's mapping. -/
def nonSentinelView (c : ShaderCache) : List ((Nat × Nat) × Nat × Option (List Nat)) :=
  (c.entries.filter (fun p => p.1 ≠ sentinelKey)).map entryView

/-- The key set of a mapping, for the merge-count statements. -/
def keysOf (m : List ((Nat × Nat) × Entry)) : Finset (Nat × Nat) :=
  (m.map Prod.fst).toFinset

/-- A small shader entry used by the concrete witnesses. -/
def entA : Entry :=
  { name1 := 5, name2 := 6, file_offset := 0, file_size := 3, reserved := 7
    data := some [10, 11, 12] }

/-- Fresh container holding `entA`, normalized. -/
def cacheA : ShaderCache := updateHeaderFn (insertAll fresh [entA])

/-- A second shader entry for merge witnesses. -/
def entS : Entry :=
  { name1 := 50, name2 := 51, file_offset := 0, file_size := 2, reserved := 0
    data := some [1, 2] }

/-- A one-entry source container for merge witnesses. -/
def cacheS : ShaderCache := updateHeaderFn (insertAll fresh [entS])

/-- An entry keyed by the reserved free-slot identifier `(0, 0)`. -/
def ent00 : Entry :=
  { name1 := 0, name2 := 0, file_offset := 0, file_size := 1, reserved := 0
    data := some [7] }

/-- Normalized container holding the `(0, 0)`-keyed entry — the round-trip
counterexample input. -/
def cache00 : ShaderCache := updateHeaderFn (insertAll fresh [ent00])

/-- An entry whose payload length (2) disagrees with its declared
`file_size` (5). -/
def entBad : Entry :=
  { name1 := 9, name2 := 9, file_offset := 0, file_size := 5, reserved := 0
    data := some [1, 2] }

/-- Normalized container holding the inconsistent entry — the serialize
counterexample input. -/
def cacheBad : ShaderCache := updateHeaderFn (insertAll fresh [entBad])

/-- A buffer whose table is well-formed but whose non-sentinel entry
declares a payload range `128+64 .. 128+64+100` reaching past the buffer's
192 bytes. -/
def cex3bytes : List Nat :=
  pack_header { magic := FILECACHE_MAGIC_V2, extra_version := 1, data_offset := 128
                file_table_offset := 0, file_table_size := 64 } ++
    pack_entry { name1 := FILECACHE_FILETABLE_NAME1, name2 := FILECACHE_FILETABLE_NAME2
                 file_offset := 0, file_size := 64, reserved := 0, data := none } ++
    pack_entry { name1 := 1, name2 := 2, file_offset := 64, file_size := 100
                 reserved := 0, data := none }

/-- A buffer with a valid header and one decodable table entry, none of
whose keys is the sentinel identifier. -/
def d9bytes : List Nat :=
  pack_header { magic := FILECACHE_MAGIC_V2, extra_version := 1, data_offset := 128
                file_table_offset := 0, file_table_size := 32 } ++
    pack_entry { name1 := 1, name2 := 2, file_offset := 32, file_size := 0
                 reserved := 0, data := none }

/-- The spec's minimal valid empty container: 128-byte header plus one
32-byte sentinel entry whose payload is the table itself. -/
def minimalBytes : List Nat :=
  pack_header { magic := FILECACHE_MAGIC_V2, extra_version := 1, data_offset := 128
                file_table_offset := 0, file_table_size := 32 } ++
    pack_entry { name1 := FILECACHE_FILETABLE_NAME1, name2 := FILECACHE_FILETABLE_NAME2
                 file_offset := 0, file_size := 32, reserved := 0, data := none }

/-- An entry whose payload is a well-formed 24-byte shader-unit header of
type 2 (pixel). -/
def entPix : Entry :=
  { name1 := 0x1111, name2 := 0x2222, file_offset := 0, file_size := 24, reserved := 0
    data := some (toLE 4 SHADER_HEADER_MAGIC ++ toLE 4 2 ++ toLE 8 0x1111 ++ toLE 8 0x2222) }

/-- An entry whose payload is 16 bytes long — at least as long as the
16-byte threshold the claim states, yet shorter than the 24-byte record
the code decodes. -/
def entShort : Entry :=
  { name1 := 1, name2 := 2, file_offset := 0, file_size := 16, reserved := 0
    data := some (List.replicate 16 0) }

/-- The container that loading the out-of-range buffer yields (the load
succeeds; the fallback branch is never taken). -/
def cex3cache : ShaderCache :=
  match load cex3bytes with
  | Except.ok c => c
  | Except.error _ => fresh

/-- The truncated entry of that container, as loaded. -/
def cex3entry : (Nat × Nat) × Entry :=
  ((1, 2), { name1 := 1, name2 := 2, file_offset := 64, file_size := 100
             reserved := 0, data := some [] })

/-- The result of the header/table phase of loading the sentinel-less
buffer (that phase succeeds; the fallback branch is never taken). -/
def d9cache : ShaderCache :=
  match loadRaw d9bytes with
  | Except.ok c => c
  | Except.error _ => fresh

/-- The container loaded from the minimal empty container bytes. -/
def cacheM : ShaderCache :=
  match load minimalBytes with
  | Except.ok c => c
  | Except.error _ => fresh

theorem toLE_length (w v : Nat) : (toLE w v).length = w := by
  induction w generalizing v with
  | zero => rfl
  | succ w ih => simp [toLE, ih]

theorem fromLE_toLE (w v : Nat) : fromLE (toLE w v) = v % 2 ^ (8 * w) := by
  induction w generalizing v with
  | zero => simp [toLE, fromLE, Nat.mod_one]
  | succ w ih =>
    have h : 2 ^ (8 * (w + 1)) = 256 * 2 ^ (8 * w) := by
      rw [Nat.mul_succ, pow_add]; ring
    rw [toLE, fromLE, ih, h, Nat.mod_mul]

theorem fromLE_toLE_of_lt {w v : Nat} (h : v < 2 ^ (8 * w)) :
    fromLE (toLE w v) = v := by
  rw [fromLE_toLE, Nat.mod_eq_of_lt h]

theorem slice_append_add (a b : List Nat) (off len : Nat) :
    slice (a ++ b) (a.length + off) len = slice b off len := by
  unfold slice
  rw [← List.drop_drop, List.drop_left]

theorem slice_append_zero (a b : List Nat) (len : Nat) :
    slice (a ++ b) a.length len = slice b 0 len := by
  simpa using slice_append_add a b 0 len

theorem slice_prefix (a b : List Nat) (off len : Nat) (h : off + len ≤ a.length) :
    slice (a ++ b) off len = slice a off len := by
  unfold slice
  rw [List.drop_append_of_le_length (by omega), List.take_append_of_le_length]
  simp; omega

theorem take_toLE (w v : Nat) (rest : List Nat) :
    (toLE w v ++ rest).take w = toLE w v := by
  have h := List.take_left (toLE w v) rest
  rwa [toLE_length] at h

theorem drop_toLE (w v : Nat) (rest : List Nat) :
    (toLE w v ++ rest).drop w = rest := by
  have h := List.drop_left (toLE w v) rest
  rwa [toLE_length] at h

theorem pack_entry_length (e : Entry) : (pack_entry e).length = 32 := by
  simp [pack_entry, toLE_length]

theorem pack_header_length (h : Header) : (pack_header h).length = 128 := by
  simp [pack_header, toLE_length]

theorem pack_entry_drop8 (e : Entry) :
    (pack_entry e).drop 8 =
      toLE 8 e.name2 ++ (toLE 8 e.file_offset ++ (toLE 4 e.file_size ++ toLE 4 e.reserved)) := by
  unfold pack_entry
  rw [List.append_assoc, List.append_assoc, List.append_assoc, drop_toLE]

theorem pack_entry_drop16 (e : Entry) :
    (pack_entry e).drop 16 =
      toLE 8 e.file_offset ++ (toLE 4 e.file_size ++ toLE 4 e.reserved) := by
  have h : (16 : Nat) = 8 + 8 := rfl
  rw [h, ← List.drop_drop, pack_entry_drop8, drop_toLE]

theorem pack_entry_drop24 (e : Entry) :
    (pack_entry e).drop 24 = toLE 4 e.file_size ++ toLE 4 e.reserved := by
  have h : (24 : Nat) = 16 + 8 := rfl
  rw [h, ← List.drop_drop, pack_entry_drop16, drop_toLE]

theorem pack_entry_drop28 (e : Entry) :
    (pack_entry e).drop 28 = toLE 4 e.reserved := by
  have h : (28 : Nat) = 24 + 4 := rfl
  rw [h, ← List.drop_drop, pack_entry_drop24, drop_toLE]

theorem slice_pack_entry_name1 (e : Entry) : slice (pack_entry e) 0 8 = toLE 8 e.name1 := by
  unfold slice pack_entry
  rw [List.drop_zero, List.append_assoc, List.append_assoc, List.append_assoc, take_toLE]

theorem slice_pack_entry_name2 (e : Entry) : slice (pack_entry e) 8 8 = toLE 8 e.name2 := by
  unfold slice
  rw [pack_entry_drop8, take_toLE]

theorem slice_pack_entry_fo (e : Entry) : slice (pack_entry e) 16 8 = toLE 8 e.file_offset := by
  unfold slice
  rw [pack_entry_drop16, take_toLE]

theorem slice_pack_entry_fs (e : Entry) : slice (pack_entry e) 24 4 = toLE 4 e.file_size := by
  unfold slice
  rw [pack_entry_drop24, take_toLE]

theorem slice_pack_entry_res (e : Entry) : slice (pack_entry e) 28 4 = toLE 4 e.reserved := by
  unfold slice
  rw [pack_entry_drop28]
  exact take_toLE 4 e.reserved []

theorem unpack_entry_append (pre post : List Nat) (e : Entry) (hok : packOK e = true) :
    unpack_entry (pre ++ (pack_entry e ++ post)) pre.length = some (metaOf e) := by
  simp only [packOK, Bool.and_eq_true, decide_eq_true_eq] at hok
  obtain ⟨⟨⟨⟨h1, h2⟩, h3⟩, h4⟩, h5⟩ := hok
  have hlen : pre.length + 32 ≤ (pre ++ (pack_entry e ++ post)).length := by
    simp [List.length_append, pack_entry_length]
  have hsl : ∀ j l, j + l ≤ 32 →
      slice (pre ++ (pack_entry e ++ post)) (pre.length + j) l = slice (pack_entry e) j l := by
    intro j l hj
    rw [slice_append_add, slice_prefix _ _ _ _ (by rw [pack_entry_length]; omega)]
  have s0 : slice (pre ++ (pack_entry e ++ post)) pre.length 8 = toLE 8 e.name1 := by
    have := hsl 0 8 (by omega)
    simpa [slice_pack_entry_name1] using this
  unfold unpack_entry
  rw [if_pos hlen, s0, hsl 8 8 (by omega), hsl 16 8 (by omega), hsl 24 4 (by omega),
    hsl 28 4 (by omega), slice_pack_entry_name2, slice_pack_entry_fo, slice_pack_entry_fs,
    slice_pack_entry_res,
    fromLE_toLE_of_lt (by norm_num at h1 ⊢; omega),
    fromLE_toLE_of_lt (by norm_num at h2 ⊢; omega),
    fromLE_toLE_of_lt (by norm_num at h3 ⊢; omega),
    fromLE_toLE_of_lt (by norm_num at h4 ⊢; omega),
    fromLE_toLE_of_lt (by norm_num at h5 ⊢; omega)]
  rfl

theorem pack_header_drop4 (h : Header) :
    (pack_header h).drop 4 =
      toLE 4 h.extra_version ++ (toLE 8 h.data_offset ++ (toLE 8 h.file_table_offset ++
        (toLE 4 h.file_table_size ++ List.replicate 100 0))) := by
  unfold pack_header
  rw [List.append_assoc, List.append_assoc, List.append_assoc, List.append_assoc, drop_toLE]

theorem pack_header_drop8 (h : Header) :
    (pack_header h).drop 8 =
      toLE 8 h.data_offset ++ (toLE 8 h.file_table_offset ++
        (toLE 4 h.file_table_size ++ List.replicate 100 0)) := by
  have e : (8 : Nat) = 4 + 4 := rfl
  rw [e, ← List.drop_drop, pack_header_drop4, drop_toLE]

theorem pack_header_drop16 (h : Header) :
    (pack_header h).drop 16 =
      toLE 8 h.file_table_offset ++ (toLE 4 h.file_table_size ++ List.replicate 100 0) := by
  have e : (16 : Nat) = 8 + 8 := rfl
  rw [e, ← List.drop_drop, pack_header_drop8, drop_toLE]

theorem pack_header_drop24 (h : Header) :
    (pack_header h).drop 24 = toLE 4 h.file_table_size ++ List.replicate 100 0 := by
  have e : (24 : Nat) = 16 + 8 := rfl
  rw [e, ← List.drop_drop, pack_header_drop16, drop_toLE]

theorem unpack_header_append (h : Header) (rest : List Nat) (hok : headerOK h = true) :
    unpack_header (pack_header h ++ rest) = some h := by
  simp only [headerOK, Bool.and_eq_true, decide_eq_true_eq] at hok
  obtain ⟨⟨⟨⟨h1, h2⟩, h3⟩, h4⟩, h5⟩ := hok
  have hlen : 128 ≤ (pack_header h ++ rest).length := by
    simp [List.length_append, pack_header_length]
  have hsl : ∀ j l, j + l ≤ 128 →
      slice (pack_header h ++ rest) j l = slice (pack_header h) j l := by
    intro j l hj
    exact slice_prefix _ _ _ _ (by rw [pack_header_length]; omega)
  have s0 : slice (pack_header h) 0 4 = toLE 4 h.magic := by
    unfold slice pack_header
    rw [List.drop_zero, List.append_assoc, List.append_assoc, List.append_assoc,
      List.append_assoc, take_toLE]
  have s4 : slice (pack_header h) 4 4 = toLE 4 h.extra_version := by
    unfold slice
    rw [pack_header_drop4, take_toLE]
  have s8 : slice (pack_header h) 8 8 = toLE 8 h.data_offset := by
    unfold slice
    rw [pack_header_drop8, take_toLE]
  have s16 : slice (pack_header h) 16 8 = toLE 8 h.file_table_offset := by
    unfold slice
    rw [pack_header_drop16, take_toLE]
  have s24 : slice (pack_header h) 24 4 = toLE 4 h.file_table_size := by
    unfold slice
    rw [pack_header_drop24, take_toLE]
  unfold unpack_header
  rw [if_pos hlen, hsl 0 4 (by omega), hsl 4 4 (by omega), hsl 8 8 (by omega),
    hsl 16 8 (by omega), hsl 24 4 (by omega), s0, s4, s8, s16, s24,
    fromLE_toLE_of_lt (by norm_num at h1 ⊢; omega),
    fromLE_toLE_of_lt (by norm_num at h2 ⊢; omega),
    fromLE_toLE_of_lt (by norm_num at h3 ⊢; omega),
    fromLE_toLE_of_lt (by norm_num at h4 ⊢; omega),
    fromLE_toLE_of_lt (by norm_num at h5 ⊢; omega)]

theorem tableBytes_cons (p : (Nat × Nat) × Entry) (m : List ((Nat × Nat) × Entry)) :
    tableBytes (p :: m) = pack_entry p.2 ++ tableBytes m := by
  simp [tableBytes]

theorem tableBytes_length (m : List ((Nat × Nat) × Entry)) :
    (tableBytes m).length = 32 * m.length := by
  induction m with
  | nil => rfl
  | cons p m ih => rw [tableBytes_cons]; simp [ih, pack_entry_length]; omega

theorem readEntries_table (m : List ((Nat × Nat) × Entry)) (pre post : List Nat)
    (hok : ∀ p ∈ m, packOK p.2 = true) :
    readEntries (pre ++ (tableBytes m ++ post)) pre.length m.length =
      some (m.map (fun p => metaOf p.2)) := by
  induction m generalizing pre with
  | nil => rfl
  | cons p m ih =>
    rw [tableBytes_cons, List.append_assoc]
    have h1 : unpack_entry (pre ++ (pack_entry p.2 ++ (tableBytes m ++ post)))
        pre.length = some (metaOf p.2) :=
      unpack_entry_append pre (tableBytes m ++ post) p.2 (hok p (by simp))
    have h2 : readEntries (pre ++ (pack_entry p.2 ++ (tableBytes m ++ post)))
        (pre.length + 32) m.length = some (m.map (fun q => metaOf q.2)) := by
      have h3 := ih (pre ++ pack_entry p.2) (fun q hq => hok q (by simp [hq]))
      rw [List.append_assoc, List.length_append, pack_entry_length] at h3
      exact h3
    show readEntries _ _ (m.length + 1) = _
    rw [readEntries, h1, h2]
    rfl

theorem hasKey_iff (k : Nat × Nat) (m : List ((Nat × Nat) × Entry)) :
    hasKey k m = true ↔ ∃ p ∈ m, p.1 = k := by
  simp [hasKey]

theorem hasKey_false_iff (k : Nat × Nat) (m : List ((Nat × Nat) × Entry)) :
    hasKey k m = false ↔ ∀ p ∈ m, p.1 ≠ k := by
  simp [hasKey]

theorem hasKey_map_fst (k : Nat × Nat) (m : List ((Nat × Nat) × Entry)) :
    hasKey k m = (m.map Prod.fst).any (fun x => x = k) := by
  induction m with
  | nil => rfl
  | cons p rest ih =>
    simp only [hasKey, List.any_cons, List.map_cons] at ih ⊢
    rw [← ih]

theorem hasKey_append (k : Nat × Nat) (a b : List ((Nat × Nat) × Entry)) :
    hasKey k (a ++ b) = (hasKey k a || hasKey k b) := by
  simp [hasKey]

theorem odInsert_append {k : Nat × Nat} {v : Entry} {m : List ((Nat × Nat) × Entry)}
    (h : hasKey k m = false) : odInsert k v m = m ++ [(k, v)] := by
  induction m with
  | nil => rfl
  | cons p rest ih =>
    rw [hasKey_false_iff] at h
    have hp : p.1 ≠ k := h p (by simp)
    rw [odInsert, if_neg hp, ih (by rw [hasKey_false_iff]; exact fun q hq => h q (by simp [hq]))]
    rfl

theorem foldl_odInsert_eq (l : List ((Nat × Nat) × Entry)) :
    ∀ acc, nodupKeysB l = true → (∀ p ∈ l, hasKey p.1 acc = false) →
      l.foldl (fun a p => odInsert p.1 p.2 a) acc = acc ++ l := by
  induction l with
  | nil => intro acc _ _; simp
  | cons p rest ih =>
    intro acc hn hd
    simp only [nodupKeysB, List.map_cons, nodupB, Bool.and_eq_true, Bool.not_eq_true',
      List.any_eq_false, List.mem_map, decide_eq_true_eq] at hn
    obtain ⟨hnp, hnr⟩ := hn
    have h1 : odInsert p.1 p.2 acc = acc ++ [p] := odInsert_append (hd p (by simp))
    have hd2 : ∀ q ∈ rest, hasKey q.1 (acc ++ [p]) = false := by
      intro q hq
      have h2 : hasKey q.1 acc = false := hd q (by simp [hq])
      have h3 : q.1 ≠ p.1 := hnp q.1 ⟨q, hq, rfl⟩
      have h4 : hasKey q.1 [p] = false := by
        rw [hasKey_false_iff]
        intro r hr
        rw [List.mem_singleton] at hr
        subst hr
        exact fun hc => h3 hc.symm
      rw [hasKey_append, h2, h4]
      rfl
    rw [List.foldl_cons, h1, ih (acc ++ [p]) hnr hd2]
    simp

theorem odOfList_self {l : List ((Nat × Nat) × Entry)} (h : nodupKeysB l = true) :
    odOfList l = l := by
  have := foldl_odInsert_eq l [] h (by intro p _; rfl)
  simpa [odOfList] using this

theorem assignOffsets_keys (t : Nat) (m : List ((Nat × Nat) × Entry)) :
    (assignOffsets t m).map Prod.fst = m.map Prod.fst := by
  induction m generalizing t with
  | nil => rfl
  | cons p rest ih => simp [assignOffsets, ih]

theorem assignOffsets_length (t : Nat) (m : List ((Nat × Nat) × Entry)) :
    (assignOffsets t m).length = m.length := by
  have := congrArg List.length (assignOffsets_keys t m)
  simpa using this

theorem setSentinelData_keys (td : List Nat) (m : List ((Nat × Nat) × Entry)) :
    (setSentinelData td m).map Prod.fst = m.map Prod.fst := by
  induction m with
  | nil => rfl
  | cons p rest ih =>
    by_cases hp : p.1 = sentinelKey <;> simp [setSentinelData, hp] <;>
      simpa [setSentinelData] using ih

theorem setSentinelData_length (td : List Nat) (m : List ((Nat × Nat) × Entry)) :
    (setSentinelData td m).length = m.length := by
  simp [setSentinelData]

theorem clearSentinelData_keys (m : List ((Nat × Nat) × Entry)) :
    (clearSentinelData m).map Prod.fst = m.map Prod.fst := by
  induction m with
  | nil => rfl
  | cons p rest ih =>
    by_cases hp : p.1 = sentinelKey <;> simp [clearSentinelData, hp] <;>
      simpa [clearSentinelData] using ih

theorem sumFS_assignOffsets (t : Nat) (m : List ((Nat × Nat) × Entry)) :
    sumFS (assignOffsets t m) = sumFS m := by
  induction m generalizing t with
  | nil => rfl
  | cons p rest ih => simp [assignOffsets, sumFS, List.map_cons] at ih ⊢; rw [ih]

theorem sumFS_setSentinelData (td : List Nat) (m : List ((Nat × Nat) × Entry)) :
    sumFS (setSentinelData td m) = sumFS m := by
  induction m with
  | nil => rfl
  | cons p rest ih =>
    by_cases hp : p.1 = sentinelKey <;>
      simp [setSentinelData, sumFS, List.map_cons, hp] at ih ⊢ <;> rw [ih]

theorem assignOffsets_mem {t : Nat} {m : List ((Nat × Nat) × Entry)} :
    ∀ p ∈ assignOffsets t m, ∃ r ∈ m, r.1 = p.1 ∧ r.2.name1 = p.2.name1 ∧
      r.2.name2 = p.2.name2 ∧ r.2.file_size = p.2.file_size ∧
      r.2.reserved = p.2.reserved ∧ r.2.data = p.2.data := by
  induction m generalizing t with
  | nil => intro p hp; cases hp
  | cons q rest ih =>
    intro p hp
    rw [assignOffsets] at hp
    rcases List.mem_cons.mp hp with h | h
    · exact ⟨q, by simp, by simp [h]⟩
    · obtain ⟨r, hr, he⟩ := ih p h
      exact ⟨r, by simp [hr], he⟩

theorem setSentinelData_of_no_sentinel {td : List Nat} {m : List ((Nat × Nat) × Entry)}
    (h : hasKey sentinelKey m = false) : setSentinelData td m = m := by
  rw [hasKey_false_iff] at h
  induction m with
  | nil => rfl
  | cons p rest ih =>
    unfold setSentinelData
    rw [List.map_cons, if_neg (h p (by simp))]
    have ih2 := ih (fun q hq => h q (by simp [hq]))
    unfold setSentinelData at ih2
    rw [ih2]

theorem offsetsRunning_assignOffsets (t : Nat) (m : List ((Nat × Nat) × Entry)) :
    offsetsRunning t (assignOffsets t m) := by
  induction m generalizing t with
  | nil => trivial
  | cons p rest ih => exact ⟨rfl, ih (t + p.2.file_size)⟩

theorem offsetsRunning_setSentinelData {t : Nat} {td : List Nat}
    {m : List ((Nat × Nat) × Entry)} (h : offsetsRunning t m) :
    offsetsRunning t (setSentinelData td m) := by
  induction m generalizing t with
  | nil => trivial
  | cons p rest ih =>
    obtain ⟨h1, h2⟩ := h
    by_cases hp : p.1 = sentinelKey <;> simp [setSentinelData, hp] <;>
      exact ⟨h1, by simpa [setSentinelData] using ih h2⟩

theorem writeData_cons_some {p : (Nat × Nat) × Entry} {rest : List ((Nat × Nat) × Entry)}
    {d : List Nat} (hd : p.2.data = some d) :
    writeData (p :: rest) =
      if d.length = p.2.file_size then (d ++ (writeData rest).1, (writeData rest).2)
      else ([], false) := by
  rw [writeData, hd]

theorem writeData_cons_none {p : (Nat × Nat) × Entry} {rest : List ((Nat × Nat) × Entry)}
    (hd : p.2.data = none) : writeData (p :: rest) = ([], false) := by
  rw [writeData, hd]

theorem writeData_ok {m : List ((Nat × Nat) × Entry)}
    (h : ∀ p ∈ m, dataOKb p.2 = true) : writeData m = (joinPayloads m, true) := by
  induction m with
  | nil => rfl
  | cons p rest ih =>
    have hp := h p (by simp)
    unfold dataOKb at hp
    split at hp
    case h_1 d hd =>
      simp only [decide_eq_true_eq] at hp
      rw [writeData_cons_some hd, if_pos hp, ih (fun q hq => h q (by simp [hq]))]
      simp [joinPayloads, hd]
    case h_2 => exact absurd hp (by simp)

theorem writeData_false {m : List ((Nat × Nat) × Entry)} {p : (Nat × Nat) × Entry}
    (hp : p ∈ m) (h : dataOKb p.2 = false) : (writeData m).2 = false := by
  induction m with
  | nil => cases hp
  | cons q rest ih =>
    rcases List.mem_cons.mp hp with he | he
    · subst he
      unfold dataOKb at h
      split at h
      case h_1 d hd => simp only [decide_eq_false_iff_not] at h; simp [writeData_cons_some hd, h]
      case h_2 hd => simp [writeData_cons_none hd]
    · rcases hq : q.2.data with _ | d
      · simp [writeData_cons_none hq]
      · by_cases hl : d.length = q.2.file_size
        · simp [writeData_cons_some hq, hl, ih he]
        · simp [writeData_cons_some hq, hl]

theorem dataOKb_congr {a b : Entry} (h1 : a.data = b.data) (h2 : a.file_size = b.file_size) :
    dataOKb a = dataOKb b := by
  unfold dataOKb
  rw [h1, h2]

theorem assignOffsets_mem_fwd {t : Nat} {m : List ((Nat × Nat) × Entry)} :
    ∀ p ∈ m, ∃ q ∈ assignOffsets t m, q.1 = p.1 ∧ q.2.file_size = p.2.file_size ∧
      q.2.data = p.2.data := by
  induction m generalizing t with
  | nil => intro p hp; cases hp
  | cons r rest ih =>
    intro p hp
    rcases List.mem_cons.mp hp with he | he
    · subst he
      exact ⟨((p.1, { p.2 with file_offset := t })), by simp [assignOffsets], rfl, rfl, rfl⟩
    · obtain ⟨q, hq, he2⟩ := @ih (t + r.2.file_size) p he
      exact ⟨q, by rw [assignOffsets]; exact List.mem_cons_of_mem _ hq, he2⟩

theorem writeReady_parts {c : ShaderCache} (h : writeReady c = true) :
    hasKey sentinelKey c.entries = true ∧
      ∀ p ∈ c.entries,
        (if p.1 = sentinelKey then p.2.file_size = 32 * c.entries.length
         else dataOKb p.2 = true) := by
  simp only [writeReady, Bool.and_eq_true, List.all_eq_true] at h
  obtain ⟨hk, hall⟩ := h
  refine ⟨hk, fun p hp => ?_⟩
  have := hall p hp
  by_cases hps : p.1 = sentinelKey
  · rw [if_pos hps] at this ⊢
    simpa using this
  · rw [if_neg hps] at this ⊢
    exact this

theorem postEnts_dataOK {c : ShaderCache} (h : writeReady c = true) :
    ∀ p ∈ postEnts c, dataOKb p.2 = true := by
  obtain ⟨hk, hall⟩ := writeReady_parts h
  intro p hp
  unfold postEnts setSentinelData at hp
  obtain ⟨r, hr, hre⟩ := List.mem_map.mp hp
  obtain ⟨s, hs, hs1, _, _, hsfs, _, hsd⟩ := assignOffsets_mem r hr
  by_cases hrs : r.1 = sentinelKey
  · rw [if_pos hrs] at hre
    subst hre
    have hss := hall s hs
    rw [if_pos (by rw [hs1, hrs])] at hss
    simp only [dataOKb, decide_eq_true_eq]
    rw [tableBytes_length, assignOffsets_length, ← hsfs, hss]
  · rw [if_neg hrs] at hre
    subst hre
    have hss := hall s hs
    rw [if_neg (by rw [hs1]; exact hrs)] at hss
    rw [dataOKb_congr hsd.symm hsfs.symm]
    exact hss

theorem write_def (c : ShaderCache) :
    write c =
      if hasKey sentinelKey (assignOffsets 0 c.entries) then
        (if (writeData (postEnts c)).2 then
          (pack_header c.header ++ (writeData (postEnts c)).1,
           Except.ok { original_size := 128 + sumFS (postEnts c)
                       header := c.header, entries := postEnts c })
         else (pack_header c.header ++ (writeData (postEnts c)).1,
               Except.error CacheError.consistencyError))
      else (pack_header c.header, Except.error CacheError.keyError) := rfl

theorem write_eq {c : ShaderCache} (h : writeReady c = true) :
    write c = (outBytes c, Except.ok (postWrite c)) := by
  obtain ⟨hk, _⟩ := writeReady_parts h
  have hk1 : hasKey sentinelKey (assignOffsets 0 c.entries) = true := by
    rw [hasKey_map_fst, assignOffsets_keys, ← hasKey_map_fst]
    exact hk
  have hw : writeData (postEnts c) = (joinPayloads (postEnts c), true) :=
    writeData_ok (postEnts_dataOK h)
  rw [write_def, hk1, hw]
  rfl

theorem write_emits_header (c : ShaderCache) : 128 ≤ (write c).1.length := by
  rw [write_def]
  split
  · split <;> simp [pack_header_length]
  · simp [pack_header_length]

theorem write_fail {c : ShaderCache} {p : (Nat × Nat) × Entry}
    (hk : hasKey sentinelKey c.entries = true) (hp : p ∈ c.entries)
    (hps : p.1 ≠ sentinelKey) (hbad : dataOKb p.2 = false) :
    (write c).2 = Except.error CacheError.consistencyError := by
  have hk1 : hasKey sentinelKey (assignOffsets 0 c.entries) = true := by
    rw [hasKey_map_fst, assignOffsets_keys, ← hasKey_map_fst]
    exact hk
  obtain ⟨q, hq, hq1, hqfs, hqd⟩ := assignOffsets_mem_fwd p hp
  have hq2 : q ∈ postEnts c := by
    unfold postEnts setSentinelData
    have : (if q.1 = sentinelKey
        then (q.1, { q.2 with data := some (tableBytes (assignOffsets 0 c.entries)) })
        else q) = q := by
      rw [if_neg (by rw [hq1]; exact hps)]
    exact this ▸ List.mem_map.mpr ⟨q, hq, rfl⟩
  have hqbad : dataOKb q.2 = false := by
    rw [dataOKb_congr hqd hqfs]
    exact hbad
  have hw : (writeData (postEnts c)).2 = false := writeData_false hq2 hqbad
  rw [write_def, hk1, hw]
  rfl

theorem attach_reslice :
    ∀ (es : List ((Nat × Nat) × Entry)) (pre : List Nat) (t : Nat),
      pre.length = 128 + t →
      offsetsRunning t es →
      (∀ p ∈ es, dataOKb p.2 = true) →
      attachPayloads (pre ++ joinPayloads es) 128 (es.map (fun p => (p.1, metaOf p.2))) = es := by
  intro es
  induction es with
  | nil => intro pre t _ _ _; rfl
  | cons p es ih =>
    intro pre t hpre hrun hdata
    obtain ⟨hoff, hrun2⟩ := hrun
    have hp := hdata p (by simp)
    unfold dataOKb at hp
    split at hp
    case h_2 => exact absurd hp (by simp)
    case h_1 d hd =>
    simp only [decide_eq_true_eq] at hp
    have hjp : joinPayloads (p :: es) = d ++ joinPayloads es := by
      simp [joinPayloads, hd]
    have hslice : slice (pre ++ joinPayloads (p :: es)) (128 + t) p.2.file_size = d := by
      rw [hjp, ← hpre, slice_append_zero]
      unfold slice
      rw [List.drop_zero, ← hp, List.take_left]
    have htail : attachPayloads (pre ++ joinPayloads (p :: es)) 128
        (es.map (fun q => (q.1, metaOf q.2))) = es := by
      rw [hjp, ← List.append_assoc]
      exact ih (pre ++ d) (t + p.2.file_size)
        (by rw [List.length_append, hpre, hp]; omega) hrun2
        (fun q hq => hdata q (by simp [hq]))
    unfold attachPayloads at htail ⊢
    rw [List.map_cons, List.map_cons]
    rw [htail]
    congr 1
    show (p.1, { metaOf p.2 with
      data := some (slice (pre ++ joinPayloads (p :: es))
        (128 + (metaOf p.2).file_offset) (metaOf p.2).file_size) }) = p
    have hfo : (metaOf p.2).file_offset = t := hoff
    rw [hfo, show (metaOf p.2).file_size = p.2.file_size from rfl, hslice]
    show (p.1, { p.2 with data := some d }) = p
    rw [← hd]

theorem nodupKeysB_cons {p : (Nat × Nat) × Entry} {tl : List ((Nat × Nat) × Entry)} :
    nodupKeysB (p :: tl) = true ↔ hasKey p.1 tl = false ∧ nodupKeysB tl = true := by
  rw [nodupKeysB, List.map_cons, nodupB, hasKey_map_fst, nodupKeysB,
    Bool.and_eq_true, Bool.not_eq_true']

theorem mem_sentinel_unique {m tl : List ((Nat × Nat) × Entry)} {e : Entry}
    (hm : m = (sentinelKey, e) :: tl) (hn : nodupKeysB m = true) :
    ∀ p ∈ m, p.1 = sentinelKey → p = (sentinelKey, e) := by
  subst hm
  intro p hp hps
  rcases List.mem_cons.mp hp with he | he
  · exact he
  · obtain ⟨hk, _⟩ := nodupKeysB_cons.mp hn
    rw [hasKey_false_iff] at hk
    exact absurd hps (hk p he)

theorem map_meta_setSentinelData (td : List Nat) (m : List ((Nat × Nat) × Entry)) :
    (setSentinelData td m).map (fun p => (p.1, metaOf p.2)) =
      m.map (fun p => (p.1, metaOf p.2)) := by
  unfold setSentinelData
  rw [List.map_map]
  apply List.map_congr_left
  intro p _
  by_cases hps : p.1 = sentinelKey <;> simp [hps, metaOf]

theorem wfc_parts {c : ShaderCache} (h : wfc c = true) :
    (∃ e0 tl, c.entries = (sentinelKey, e0) :: tl ∧
      e0.file_size = 32 * c.entries.length ∧ e0.file_offset = 0 ∧ e0.data = none) ∧
    nodupKeysB c.entries = true ∧
    (∀ p ∈ c.entries, packOKBase p.2 = true ∧ entryKeyOK p = true) ∧
    (∀ p ∈ c.entries, p.1 ≠ sentinelKey → dataOKb p.2 = true) ∧
    c.header.magic = FILECACHE_MAGIC_V2 ∧ c.header.extra_version < 2 ^ 32 ∧
    c.header.data_offset = 128 ∧ c.header.file_table_offset = 0 ∧
    c.header.file_table_size = 32 * c.entries.length ∧
    128 + sumFS c.entries < 2 ^ 64 := by
  simp only [wfc, Bool.and_eq_true, List.all_eq_true, decide_eq_true_eq] at h
  obtain ⟨⟨⟨⟨⟨⟨⟨⟨⟨⟨hhead, hnd⟩, hpk⟩, hdat⟩, hsent⟩, hmag⟩, hev⟩, hdo⟩, hfto⟩, hfts⟩, hsum⟩ := h
  refine ⟨?_, hnd, ?_, ?_, hmag, hev, hdo, hfto, hfts, hsum⟩
  · rcases hce : c.entries with _ | ⟨p, tl⟩
    · rw [hce] at hhead; exact absurd hhead (by simp [headSentinelB])
    · rw [hce] at hhead hsent
      simp only [headSentinelB, decide_eq_true_eq] at hhead
      simp only [Bool.and_eq_true, decide_eq_true_eq] at hsent
      obtain ⟨⟨hfs, hfo⟩, hdn⟩ := hsent
      refine ⟨p.2, tl, ?_, hfs, hfo, hdn⟩
      rw [← hhead]
  · intro p hp
    have := hpk p hp
    simp only [Bool.and_eq_true] at this
    exact this
  · intro p hp hps
    have := hdat p hp
    rcases Bool.or_eq_true_iff.mp this with h1 | h1
    · exact absurd (of_decide_eq_true h1) hps
    · exact h1

theorem wfc_writeReady {c : ShaderCache} (h : wfc c = true) : writeReady c = true := by
  obtain ⟨⟨e0, tl, hce, hfs, _, _⟩, hnd, _, hdat, _⟩ := wfc_parts h
  unfold writeReady
  rw [Bool.and_eq_true, List.all_eq_true]
  constructor
  · rw [hasKey_iff]
    exact ⟨(sentinelKey, e0), by rw [hce]; simp, rfl⟩
  · intro p hp
    by_cases hps : p.1 = sentinelKey
    · have hpe := mem_sentinel_unique hce hnd p hp hps
      rw [if_pos hps, hpe]
      simp [hfs]
    · rw [if_neg hps]
      exact hdat p hp hps

theorem sumFS_cons (p : (Nat × Nat) × Entry) (m : List ((Nat × Nat) × Entry)) :
    sumFS (p :: m) = p.2.file_size + sumFS m := by
  simp [sumFS]

theorem assignOffsets_packOK {m : List ((Nat × Nat) × Entry)} {t : Nat}
    (hbase : ∀ p ∈ m, packOKBase p.2 = true) (hsum : t + sumFS m < 2 ^ 64) :
    ∀ p ∈ assignOffsets t m, packOK p.2 = true := by
  induction m generalizing t with
  | nil => intro p hp; cases hp
  | cons q rest ih =>
    intro p hp
    rw [assignOffsets] at hp
    rw [sumFS_cons] at hsum
    rcases List.mem_cons.mp hp with he | he
    · subst he
      have hb := hbase q (by simp)
      simp only [packOKBase, Bool.and_eq_true, decide_eq_true_eq] at hb
      obtain ⟨⟨⟨h1, h2⟩, h3⟩, h4⟩ := hb
      simp only [packOK, Bool.and_eq_true, decide_eq_true_eq]
      exact ⟨⟨⟨⟨h1, h2⟩, by omega⟩, h3⟩, h4⟩
    · exact ih (fun r hr => hbase r (by simp [hr])) (by omega) p he

theorem nodupKeysB_map_fstPreserving (m : List ((Nat × Nat) × Entry))
    (f : (Nat × Nat) × Entry → Entry) :
    nodupKeysB (m.map (fun p => (p.1, f p))) = nodupKeysB m := by
  unfold nodupKeysB
  rw [List.map_map]
  rfl

theorem joinPayloads_cons (p : (Nat × Nat) × Entry) (rest : List ((Nat × Nat) × Entry)) :
    joinPayloads (p :: rest) = p.2.data.getD [] ++ joinPayloads rest := by
  simp [joinPayloads]

theorem postEnts_cons {c : ShaderCache} {e0 : Entry} {tl : List ((Nat × Nat) × Entry)}
    (hce : c.entries = (sentinelKey, e0) :: tl) (htl : hasKey sentinelKey tl = false) :
    postEnts c =
      (sentinelKey,
        { e0 with
            file_offset := 0
            data := some (tableBytes (assignOffsets 0 c.entries)) }) ::
        assignOffsets (0 + e0.file_size) tl := by
  have hno : hasKey sentinelKey (assignOffsets (0 + e0.file_size) tl) = false := by
    rw [hasKey_map_fst, assignOffsets_keys, ← hasKey_map_fst]
    exact htl
  unfold postEnts
  rw [hce]
  rw [show assignOffsets 0 ((sentinelKey, e0) :: tl) =
      (sentinelKey, { e0 with file_offset := 0 }) :: assignOffsets (0 + e0.file_size) tl
    from rfl]
  unfold setSentinelData
  rw [List.map_cons, if_pos rfl]
  have hrest := @setSentinelData_of_no_sentinel
    (tableBytes ((sentinelKey, { e0 with file_offset := 0 }) ::
      assignOffsets (0 + e0.file_size) tl))
    (assignOffsets (0 + e0.file_size) tl) hno
  unfold setSentinelData at hrest
  rw [hrest]

theorem outBytes_split {c : ShaderCache} {e0 : Entry} {tl : List ((Nat × Nat) × Entry)}
    (hce : c.entries = (sentinelKey, e0) :: tl) (htl : hasKey sentinelKey tl = false) :
    outBytes c = pack_header c.header ++ (tableBytes (assignOffsets 0 c.entries) ++
      joinPayloads (assignOffsets (0 + e0.file_size) tl)) := by
  unfold outBytes
  rw [postEnts_cons hce htl, joinPayloads_cons]
  rfl

theorem loadRaw_eq {d : List Nat} {h : Header} {es : List Entry}
    (hh : unpack_header d = some h) (hm : h.magic = FILECACHE_MAGIC_V2)
    (hmod : h.file_table_size % 32 = 0)
    (hre : readEntries d (h.data_offset + h.file_table_offset) (h.file_table_size / 32) =
      some es) :
    loadRaw d = Except.ok
      { original_size := d.length
        header := h
        entries := attachPayloads d h.data_offset
          ((odOfList (es.map (fun e => ((e.name1, e.name2), e)))).filter
            (fun p => p.1 ≠ freeKey)) } := by
  unfold loadRaw
  rw [hh]
  simp only [hm, hmod, hre, if_true, eq_self_iff_true, if_pos]

theorem nodupKeysB_assignOffsets (t : Nat) (m : List ((Nat × Nat) × Entry)) :
    nodupKeysB (assignOffsets t m) = nodupKeysB m := by
  unfold nodupKeysB
  rw [assignOffsets_keys]

theorem loadRaw_outBytes {c : ShaderCache} (h : wfc c = true) :
    loadRaw (outBytes c) = Except.ok
      { original_size := (outBytes c).length
        header := c.header
        entries := postEnts c } := by
  obtain ⟨⟨e0, tl, hce, hfs, hfo0, hdn⟩, hnd, hpk, hdat, hmag, hev, hdo, hfto, hfts, hsum⟩ :=
    wfc_parts h
  have htl : hasKey sentinelKey tl = false :=
    (nodupKeysB_cons.mp (show nodupKeysB ((sentinelKey, e0) :: tl) = true from hce ▸ hnd)).1
  have hfs32 : 32 * c.entries.length < 2 ^ 32 := by
    have h2 := (hpk (sentinelKey, e0) (by rw [hce]; simp)).1
    simp only [packOKBase, Bool.and_eq_true, decide_eq_true_eq] at h2
    rw [← hfs]
    exact h2.1.2
  have hhOK : headerOK c.header = true := by
    simp only [headerOK, Bool.and_eq_true, decide_eq_true_eq]
    refine ⟨⟨⟨⟨?_, hev⟩, ?_⟩, ?_⟩, ?_⟩
    · rw [hmag]; norm_num [FILECACHE_MAGIC_V2]
    · rw [hdo]; norm_num
    · rw [hfto]; norm_num
    · rw [hfts]; exact hfs32
  have hhdr : unpack_header (outBytes c) = some c.header := by
    unfold outBytes
    exact unpack_header_append c.header _ hhOK
  have hmod : c.header.file_table_size % 32 = 0 := by
    rw [hfts]; exact Nat.mul_mod_right 32 _
  have hcnt : c.header.file_table_size / 32 = c.entries.length := by
    rw [hfts]; exact Nat.mul_div_cancel_left _ (by norm_num)
  have hpck1 : ∀ p ∈ assignOffsets 0 c.entries, packOK p.2 = true :=
    assignOffsets_packOK (fun p hp => (hpk p hp).1) (by omega)
  have hread : readEntries (outBytes c) (c.header.data_offset + c.header.file_table_offset)
      (c.header.file_table_size / 32) =
      some ((assignOffsets 0 c.entries).map (fun p => metaOf p.2)) := by
    rw [hdo, hfto, hcnt]
    have h0 := readEntries_table (assignOffsets 0 c.entries) (pack_header c.header)
      (joinPayloads (assignOffsets (0 + e0.file_size) tl)) hpck1
    rw [pack_header_length, assignOffsets_length] at h0
    rw [outBytes_split hce htl]
    simpa using h0
  rw [loadRaw_eq hhdr hmag hmod hread]
  have hpairs : ((assignOffsets 0 c.entries).map (fun p => metaOf p.2)).map
      (fun e => ((e.name1, e.name2), e)) =
      (assignOffsets 0 c.entries).map (fun p => (p.1, metaOf p.2)) := by
    rw [List.map_map]
    apply List.map_congr_left
    intro p hp
    obtain ⟨s, hs, hs1, hn1, hn2, _, _, _⟩ := assignOffsets_mem p hp
    have hk := (hpk s hs).2
    simp only [entryKeyOK, Bool.and_eq_true, decide_eq_true_eq] at hk
    show ((p.2.name1, p.2.name2), metaOf p.2) = (p.1, metaOf p.2)
    rw [← hn1, ← hn2, ← hk.1, hs1]
  have hnd1 : nodupKeysB ((assignOffsets 0 c.entries).map (fun p => (p.1, metaOf p.2))) =
      true := by
    rw [nodupKeysB_map_fstPreserving, nodupKeysB_assignOffsets]
    exact hnd
  have hfree : ∀ p ∈ (assignOffsets 0 c.entries).map (fun p => (p.1, metaOf p.2)),
      p.1 ≠ freeKey := by
    intro p hp
    obtain ⟨q, hq, hqe⟩ := List.mem_map.mp hp
    obtain ⟨s, hs, hs1, _⟩ := assignOffsets_mem q hq
    have hk := (hpk s hs).2
    simp only [entryKeyOK, Bool.and_eq_true, decide_eq_true_eq] at hk
    rw [← hqe]
    show q.1 ≠ freeKey
    rw [← hs1]
    exact hk.2
  have hattach : attachPayloads (outBytes c) c.header.data_offset
      ((odOfList (((assignOffsets 0 c.entries).map (fun p => metaOf p.2)).map
        (fun e => ((e.name1, e.name2), e)))).filter (fun p => p.1 ≠ freeKey)) =
      postEnts c := by
    rw [hpairs, odOfList_self hnd1, List.filter_eq_self.mpr (by
      intro p hp
      simpa using hfree p hp)]
    rw [hdo]
    have hmeta : (assignOffsets 0 c.entries).map (fun p => (p.1, metaOf p.2)) =
        (postEnts c).map (fun p => (p.1, metaOf p.2)) := by
      unfold postEnts
      rw [map_meta_setSentinelData]
    rw [hmeta]
    exact attach_reslice (postEnts c) (pack_header c.header) 0
      (by simp [pack_header_length])
      (offsetsRunning_setSentinelData (offsetsRunning_assignOffsets 0 c.entries))
      (postEnts_dataOK (wfc_writeReady h))
  rw [hattach]

theorem nodupKeysB_setSentinelData (td : List Nat) (m : List ((Nat × Nat) × Entry)) :
    nodupKeysB (setSentinelData td m) = nodupKeysB m := by
  unfold nodupKeysB
  rw [setSentinelData_keys]

theorem postEnts_length (c : ShaderCache) : (postEnts c).length = c.entries.length := by
  unfold postEnts
  rw [setSentinelData_length, assignOffsets_length]

theorem load_outBytes {c : ShaderCache} (h : wfc c = true) :
    load (outBytes c) = Except.ok (loadedOf c) := by
  obtain ⟨⟨e0, tl, hce, hfs, hfo0, hdn⟩, hnd, hpk, hdat, hmag, hev, hdo, hfto, hfts, hsum⟩ :=
    wfc_parts h
  have htl : hasKey sentinelKey tl = false :=
    (nodupKeysB_cons.mp (show nodupKeysB ((sentinelKey, e0) :: tl) = true from hce ▸ hnd)).1
  have hpost := postEnts_cons hce htl
  have hndp : nodupKeysB (postEnts c) = true := by
    unfold postEnts
    rw [nodupKeysB_setSentinelData, nodupKeysB_assignOffsets]
    exact hnd
  have hk : hasKey sentinelKey (postEnts c) = true := by
    rw [hasKey_iff]
    exact ⟨_, by rw [hpost]; exact List.mem_cons_self _ _, rfl⟩
  unfold load
  rw [loadRaw_outBytes h]
  show update_header _ = _
  unfold update_header
  rw [if_pos (by simpa using hk)]
  unfold updateHeaderFn loadedOf clearSentinelData
  simp only [Except.ok.injEq, ShaderCache.mk.injEq]
  refine ⟨trivial, ?_, ?_⟩
  · rw [postEnts_length, ← hfts, ← hfto]
  · apply List.map_congr_left
    intro p hp
    by_cases hps : p.1 = sentinelKey
    · have hpe := mem_sentinel_unique hpost hndp p hp hps
      rw [if_pos hps, if_pos hps, hpe]
      rw [postEnts_length, ← hfs]
    · rw [if_neg hps, if_neg hps]

theorem clearSentinelData_of_no_sentinel {m : List ((Nat × Nat) × Entry)}
    (h : hasKey sentinelKey m = false) : clearSentinelData m = m := by
  rw [hasKey_false_iff] at h
  induction m with
  | nil => rfl
  | cons p rest ih =>
    unfold clearSentinelData
    rw [List.map_cons, if_neg (h p (by simp))]
    have ih2 := ih (fun q hq => h q (by simp [hq]))
    unfold clearSentinelData at ih2
    rw [ih2]

theorem assignOffsets_of_running {m : List ((Nat × Nat) × Entry)} :
    ∀ {t : Nat}, offsetsRunning t m → assignOffsets t m = m := by
  induction m with
  | nil => intro t _; rfl
  | cons p rest ih =>
    intro t h
    obtain ⟨h1, h2⟩ := h
    rw [assignOffsets, ih h2, ← h1]

theorem offsetsRunning_clearSentinelData {t : Nat} {m : List ((Nat × Nat) × Entry)}
    (h : offsetsRunning t m) : offsetsRunning t (clearSentinelData m) := by
  induction m generalizing t with
  | nil => trivial
  | cons p rest ih =>
    obtain ⟨h1, h2⟩ := h
    by_cases hp : p.1 = sentinelKey <;> simp [clearSentinelData, hp] <;>
      exact ⟨h1, by simpa [clearSentinelData] using ih h2⟩

theorem tableBytes_setSentinelData (td : List Nat) (m : List ((Nat × Nat) × Entry)) :
    tableBytes (setSentinelData td m) = tableBytes m := by
  induction m with
  | nil => rfl
  | cons p rest ih =>
    by_cases hp : p.1 = sentinelKey <;>
      simp only [setSentinelData, List.map_cons, hp, if_true, if_false, reduceIte,
        tableBytes_cons] at ih ⊢ <;>
      rw [← ih] <;> simp [setSentinelData, pack_entry]

theorem tableBytes_clearSentinelData (m : List ((Nat × Nat) × Entry)) :
    tableBytes (clearSentinelData m) = tableBytes m := by
  induction m with
  | nil => rfl
  | cons p rest ih =>
    by_cases hp : p.1 = sentinelKey <;>
      simp only [clearSentinelData, List.map_cons, hp, if_true, if_false, reduceIte,
        tableBytes_cons] at ih ⊢ <;>
      rw [← ih] <;> simp [clearSentinelData, pack_entry]

theorem setSentinelData_clear (td : List Nat) (m : List ((Nat × Nat) × Entry)) :
    setSentinelData td (clearSentinelData m) = setSentinelData td m := by
  unfold setSentinelData clearSentinelData
  rw [List.map_map]
  apply List.map_congr_left
  intro p _
  by_cases hp : p.1 = sentinelKey <;> simp [hp]

theorem setSentinelData_idem (td : List Nat) (m : List ((Nat × Nat) × Entry)) :
    setSentinelData td (setSentinelData td m) = setSentinelData td m := by
  unfold setSentinelData
  rw [List.map_map]
  apply List.map_congr_left
  intro p _
  by_cases hp : p.1 = sentinelKey <;> simp [hp]

theorem sumFS_clearSentinelData (m : List ((Nat × Nat) × Entry)) :
    sumFS (clearSentinelData m) = sumFS m := by
  induction m with
  | nil => rfl
  | cons p rest ih =>
    by_cases hp : p.1 = sentinelKey <;>
      simp [clearSentinelData, sumFS, List.map_cons, hp] at ih ⊢ <;> rw [ih]

theorem postEnts_loadedOf {c : ShaderCache} (h : wfc c = true) :
    postEnts (loadedOf c) = postEnts c := by
  have hrun : offsetsRunning 0 (clearSentinelData (postEnts c)) :=
    offsetsRunning_clearSentinelData
      (offsetsRunning_setSentinelData (offsetsRunning_assignOffsets 0 c.entries))
  have htb : tableBytes (postEnts c) = tableBytes (assignOffsets 0 c.entries) := by
    unfold postEnts
    rw [tableBytes_setSentinelData]
  show setSentinelData (tableBytes (assignOffsets 0 (clearSentinelData (postEnts c))))
      (assignOffsets 0 (clearSentinelData (postEnts c))) = postEnts c
  rw [assignOffsets_of_running hrun, tableBytes_clearSentinelData, htb, setSentinelData_clear]
  unfold postEnts
  rw [setSentinelData_idem]

theorem outBytes_loadedOf {c : ShaderCache} (h : wfc c = true) :
    outBytes (loadedOf c) = outBytes c := by
  unfold outBytes
  rw [postEnts_loadedOf h]
  rfl

theorem hasKey_assignOffsets (k : Nat × Nat) (t : Nat) (m : List ((Nat × Nat) × Entry)) :
    hasKey k (assignOffsets t m) = hasKey k m := by
  rw [hasKey_map_fst, assignOffsets_keys, ← hasKey_map_fst]

theorem clearSentinelData_length (m : List ((Nat × Nat) × Entry)) :
    (clearSentinelData m).length = m.length := by
  simp [clearSentinelData]

theorem nodupKeysB_clearSentinelData (m : List ((Nat × Nat) × Entry)) :
    nodupKeysB (clearSentinelData m) = nodupKeysB m := by
  unfold nodupKeysB
  rw [clearSentinelData_keys]

theorem packOKBase_fields {a b : Entry} (h1 : a.name1 = b.name1) (h2 : a.name2 = b.name2)
    (h3 : a.file_size = b.file_size) (h4 : a.reserved = b.reserved) :
    packOKBase a = packOKBase b := by
  unfold packOKBase
  rw [h1, h2, h3, h4]

theorem entryKeyOK_fields {p q : (Nat × Nat) × Entry} (hk : p.1 = q.1)
    (h1 : p.2.name1 = q.2.name1) (h2 : p.2.name2 = q.2.name2) :
    entryKeyOK p = entryKeyOK q := by
  unfold entryKeyOK
  rw [hk, h1, h2]

theorem wfc_intro {c : ShaderCache} {e0 : Entry} {tl : List ((Nat × Nat) × Entry)}
    (hce : c.entries = (sentinelKey, e0) :: tl)
    (h2 : nodupKeysB c.entries = true)
    (h3 : ∀ p ∈ c.entries, packOKBase p.2 = true ∧ entryKeyOK p = true)
    (h4 : ∀ p ∈ c.entries, p.1 ≠ sentinelKey → dataOKb p.2 = true)
    (hfs : e0.file_size = 32 * c.entries.length)
    (hfo : e0.file_offset = 0) (hdn : e0.data = none)
    (hmag : c.header.magic = FILECACHE_MAGIC_V2)
    (hev : c.header.extra_version < 2 ^ 32)
    (hdo : c.header.data_offset = 128)
    (hfto : c.header.file_table_offset = 0)
    (hfts : c.header.file_table_size = 32 * c.entries.length)
    (hsum : 128 + sumFS c.entries < 2 ^ 64) : wfc c = true := by
  have hfs2 : e0.file_size = 32 * ((sentinelKey, e0) :: tl).length := by
    rw [← hce]; exact hfs
  simp only [wfc, Bool.and_eq_true, List.all_eq_true, decide_eq_true_eq]
  refine ⟨⟨⟨⟨⟨⟨⟨⟨⟨⟨?_, h2⟩, ?_⟩, ?_⟩, ?_⟩, hmag⟩, hev⟩, hdo⟩, hfto⟩, hfts⟩, hsum⟩
  · rw [hce]
    simp [headSentinelB]
  · intro p hp
    have h5 := h3 p hp
    simp [h5.1, h5.2]
  · intro p hp
    by_cases hps : p.1 = sentinelKey
    · simp [hps]
    · simp [hps, h4 p hp hps]
  · rw [hce]
    simp [hfs2, hfo, hdn, ← hce]

theorem loadedOf_shape {c : ShaderCache} {e0 : Entry} {tl : List ((Nat × Nat) × Entry)}
    (hce : c.entries = (sentinelKey, e0) :: tl) (htl : hasKey sentinelKey tl = false) :
    (loadedOf c).entries =
      (sentinelKey, { e0 with file_offset := 0, data := none }) ::
        assignOffsets (0 + e0.file_size) tl := by
  have hT : hasKey sentinelKey (assignOffsets (0 + e0.file_size) tl) = false := by
    rw [hasKey_assignOffsets]
    exact htl
  show clearSentinelData (postEnts c) = _
  rw [postEnts_cons hce htl]
  unfold clearSentinelData
  rw [List.map_cons, if_pos rfl]
  have h5 := clearSentinelData_of_no_sentinel hT
  unfold clearSentinelData at h5
  rw [h5]

theorem loadedOf_length (c : ShaderCache) :
    (loadedOf c).entries.length = c.entries.length := by
  show (clearSentinelData (postEnts c)).length = _
  rw [clearSentinelData_length, postEnts_length]

theorem sumFS_loadedOf (c : ShaderCache) :
    sumFS (loadedOf c).entries = sumFS c.entries := by
  show sumFS (clearSentinelData (postEnts c)) = _
  rw [sumFS_clearSentinelData]
  unfold postEnts
  rw [sumFS_setSentinelData, sumFS_assignOffsets]

theorem wfc_loadedOf {c : ShaderCache} (h : wfc c = true) : wfc (loadedOf c) = true := by
  obtain ⟨⟨e0, tl, hce, hfs, hfo0, hdn⟩, hnd, hpk, hdat, hmag, hev, hdo, hfto, hfts, hsum⟩ :=
    wfc_parts h
  have htl : hasKey sentinelKey tl = false :=
    (nodupKeysB_cons.mp (show nodupKeysB ((sentinelKey, e0) :: tl) = true from hce ▸ hnd)).1
  have hshape := loadedOf_shape hce htl
  have hmem : ∀ p ∈ (loadedOf c).entries,
      ∃ s ∈ c.entries, s.1 = p.1 ∧ s.2.name1 = p.2.name1 ∧ s.2.name2 = p.2.name2 ∧
        s.2.file_size = p.2.file_size ∧ s.2.reserved = p.2.reserved ∧
        (p.1 ≠ sentinelKey → s.2.data = p.2.data) := by
    intro p hp
    rw [hshape] at hp
    rcases List.mem_cons.mp hp with he | he
    · refine ⟨(sentinelKey, e0), by rw [hce]; simp, ?_⟩
      rw [he]
      exact ⟨rfl, rfl, rfl, rfl, rfl, fun hc => absurd rfl hc⟩
    · obtain ⟨s, hs, h5⟩ := assignOffsets_mem p he
      exact ⟨s, by rw [hce]; simp [hs], h5.1, h5.2.1, h5.2.2.1, h5.2.2.2.1, h5.2.2.2.2.1,
        fun _ => h5.2.2.2.2.2⟩
  apply wfc_intro hshape
  · rw [show nodupKeysB (loadedOf c).entries = nodupKeysB c.entries from ?_]
    · exact hnd
    · show nodupKeysB (clearSentinelData (postEnts c)) = _
      rw [nodupKeysB_clearSentinelData]
      unfold postEnts
      rw [nodupKeysB_setSentinelData, nodupKeysB_assignOffsets]
  · intro p hp
    obtain ⟨s, hs, hk1, hn1, hn2, hfs1, hres, _⟩ := hmem p hp
    constructor
    · rw [← packOKBase_fields hn1 hn2 hfs1 hres]
      exact (hpk s hs).1
    · rw [← entryKeyOK_fields hk1 hn1 hn2]
      exact (hpk s hs).2
  · intro p hp hps
    obtain ⟨s, hs, hk1, _, _, hfs1, _, hd1⟩ := hmem p hp
    rw [← dataOKb_congr (hd1 hps) hfs1]
    exact hdat s hs (by rw [hk1]; exact hps)
  · show Entry.file_size _ = _
    rw [loadedOf_length, ← hfs]
  · rfl
  · rfl
  · exact hmag
  · exact hev
  · exact hdo
  · exact hfto
  · rw [loadedOf_length]
    show c.header.file_table_size = 32 * c.entries.length
    exact hfts
  · rw [sumFS_loadedOf]
    exact hsum

theorem clearSentinelData_cons (p : (Nat × Nat) × Entry) (rest : List ((Nat × Nat) × Entry)) :
    clearSentinelData (p :: rest) =
      (if p.1 = sentinelKey then (p.1, { p.2 with data := none }) else p) ::
        clearSentinelData rest := rfl

theorem setSentinelData_cons (td : List Nat) (p : (Nat × Nat) × Entry)
    (rest : List ((Nat × Nat) × Entry)) :
    setSentinelData td (p :: rest) =
      (if p.1 = sentinelKey then (p.1, { p.2 with data := some td }) else p) ::
        setSentinelData td rest := rfl

theorem filterNS_clearSentinelData (m : List ((Nat × Nat) × Entry)) :
    (clearSentinelData m).filter (fun p => p.1 ≠ sentinelKey) =
      m.filter (fun p => p.1 ≠ sentinelKey) := by
  induction m with
  | nil => rfl
  | cons p rest ih =>
    rw [clearSentinelData_cons]
    by_cases hp : p.1 = sentinelKey
    · simp [hp, List.filter_cons]
      simpa using ih
    · simp [hp, List.filter_cons]
      simpa using ih

theorem filterNS_setSentinelData (td : List Nat) (m : List ((Nat × Nat) × Entry)) :
    (setSentinelData td m).filter (fun p => p.1 ≠ sentinelKey) =
      m.filter (fun p => p.1 ≠ sentinelKey) := by
  induction m with
  | nil => rfl
  | cons p rest ih =>
    rw [setSentinelData_cons]
    by_cases hp : p.1 = sentinelKey
    · simp [hp, List.filter_cons]
      simpa using ih
    · simp [hp, List.filter_cons]
      simpa using ih

theorem filterNSView_assignOffsets (m : List ((Nat × Nat) × Entry)) :
    ∀ t, ((assignOffsets t m).filter (fun p => p.1 ≠ sentinelKey)).map entryView =
      (m.filter (fun p => p.1 ≠ sentinelKey)).map entryView := by
  induction m with
  | nil => intro t; rfl
  | cons p rest ih =>
    intro t
    rw [assignOffsets, List.filter_cons, List.filter_cons]
    by_cases hp : p.1 = sentinelKey
    · simp [hp]
      simpa using ih (t + p.2.file_size)
    · simp [hp, entryView]
      simpa [entryView] using ih (t + p.2.file_size)

theorem nonSentinelView_loadedOf (c : ShaderCache) :
    nonSentinelView (loadedOf c) = nonSentinelView c := by
  unfold nonSentinelView
  show ((clearSentinelData (postEnts c)).filter (fun p => p.1 ≠ sentinelKey)).map entryView = _
  rw [filterNS_clearSentinelData]
  unfold postEnts
  rw [filterNS_setSentinelData]
  exact filterNSView_assignOffsets c.entries 0

theorem hasKey_odInsert (x k : Nat × Nat) (v : Entry) (m : List ((Nat × Nat) × Entry)) :
    hasKey x (odInsert k v m) = (hasKey x m || decide (k = x)) := by
  induction m with
  | nil => simp [odInsert, hasKey]
  | cons p rest ih =>
    rw [odInsert]
    by_cases hp : p.1 = k
    · rw [if_pos hp]
      simp only [hasKey, List.any_cons, hp]
      cases hd : decide (k = x) <;> simp [hd]
    · rw [if_neg hp]
      simp only [hasKey, List.any_cons] at ih ⊢
      rw [ih, Bool.or_assoc]

theorem odInsert_nodup {k : Nat × Nat} {v : Entry} {m : List ((Nat × Nat) × Entry)}
    (h : nodupKeysB m = true) : nodupKeysB (odInsert k v m) = true := by
  induction m with
  | nil => simp [odInsert, nodupKeysB, nodupB]
  | cons p rest ih =>
    obtain ⟨h1, h2⟩ := nodupKeysB_cons.mp h
    rw [odInsert]
    by_cases hp : p.1 = k
    · rw [if_pos hp]
      apply nodupKeysB_cons.mpr
      rw [hp] at h1
      exact ⟨h1, h2⟩
    · rw [if_neg hp]
      apply nodupKeysB_cons.mpr
      refine ⟨?_, ih h2⟩
      rw [hasKey_odInsert, h1]
      simp
      exact fun hc => hp hc.symm

theorem odInsert_forall {P : (Nat × Nat) × Entry → Prop} {k : Nat × Nat} {v : Entry}
    {m : List ((Nat × Nat) × Entry)} (hm : ∀ p ∈ m, P p) (hv : P (k, v)) :
    ∀ p ∈ odInsert k v m, P p := by
  induction m with
  | nil => intro p hp; rw [List.mem_singleton.mp hp]; exact hv
  | cons q rest ih =>
    intro p hp
    rw [odInsert] at hp
    by_cases hq : q.1 = k
    · rw [if_pos hq] at hp
      rcases List.mem_cons.mp hp with he | he
      · rw [he]; exact hv
      · exact hm p (by simp [he])
    · rw [if_neg hq] at hp
      rcases List.mem_cons.mp hp with he | he
      · rw [he]; exact hm q (by simp)
      · exact ih (fun r hr => hm r (by simp [hr])) p he

theorem odInsert_length_le (k : Nat × Nat) (v : Entry) (m : List ((Nat × Nat) × Entry)) :
    (odInsert k v m).length ≤ m.length + 1 := by
  induction m with
  | nil => simp [odInsert]
  | cons p rest ih =>
    rw [odInsert]
    by_cases hp : p.1 = k
    · rw [if_pos hp]; simp
    · rw [if_neg hp]
      simp only [List.length_cons]
      omega

theorem sumFS_odInsert_le (k : Nat × Nat) (v : Entry) (m : List ((Nat × Nat) × Entry)) :
    sumFS (odInsert k v m) ≤ sumFS m + v.file_size := by
  induction m with
  | nil => simp [odInsert, sumFS]
  | cons p rest ih =>
    have hred : ((k, v) : (Nat × Nat) × Entry).2.file_size = v.file_size := rfl
    rw [odInsert]
    by_cases hp : p.1 = k
    · rw [if_pos hp, sumFS_cons, sumFS_cons, hred]
      omega
    · rw [if_neg hp, sumFS_cons, sumFS_cons]
      omega

theorem insertAll_cons (c : ShaderCache) (e : Entry) (L : List Entry) :
    insertAll c (e :: L) = insertAll (insertEntry c e) L := rfl

theorem insertAll_header : ∀ (L : List Entry) (c : ShaderCache),
    (insertAll c L).header = c.header := by
  intro L
  induction L with
  | nil => intro c; rfl
  | cons e L ih => intro c; rw [insertAll_cons, ih]; rfl

theorem insertAll_entries_head : ∀ (L : List Entry) (c : ShaderCache) (s : Entry)
    (tl : List ((Nat × Nat) × Entry)), c.entries = (sentinelKey, s) :: tl →
    ∃ s2 tl2, (insertAll c L).entries = (sentinelKey, s2) :: tl2 := by
  intro L
  induction L with
  | nil => intro c s tl hce; exact ⟨s, tl, hce⟩
  | cons e L ih =>
    intro c s tl hce
    rw [insertAll_cons]
    by_cases hk : sentinelKey = (e.name1, e.name2)
    · apply ih (insertEntry c e) e tl
      show odInsert (e.name1, e.name2) e c.entries = _
      rw [hce, odInsert, if_pos hk, ← hk]
    · apply ih (insertEntry c e) s (odInsert (e.name1, e.name2) e tl)
      show odInsert (e.name1, e.name2) e c.entries = _
      rw [hce, odInsert, if_neg hk]

theorem insertAll_nodup : ∀ (L : List Entry) (c : ShaderCache),
    nodupKeysB c.entries = true → nodupKeysB (insertAll c L).entries = true := by
  intro L
  induction L with
  | nil => intro c h; exact h
  | cons e L ih =>
    intro c h
    rw [insertAll_cons]
    exact ih (insertEntry c e) (odInsert_nodup h)

theorem insertAll_forall {P : (Nat × Nat) × Entry → Prop} : ∀ (L : List Entry)
    (c : ShaderCache), (∀ p ∈ c.entries, P p) → (∀ e ∈ L, P ((e.name1, e.name2), e)) →
    ∀ p ∈ (insertAll c L).entries, P p := by
  intro L
  induction L with
  | nil => intro c hc _ p hp; exact hc p hp
  | cons e L ih =>
    intro c hc hL p hp
    rw [insertAll_cons] at hp
    exact ih (insertEntry c e)
      (odInsert_forall hc (hL e (by simp)))
      (fun f hf => hL f (by simp [hf])) p hp

theorem insertAll_length_le : ∀ (L : List Entry) (c : ShaderCache),
    (insertAll c L).entries.length ≤ c.entries.length + L.length := by
  intro L
  induction L with
  | nil =>
    intro c
    show c.entries.length ≤ c.entries.length + 0
    omega
  | cons e L ih =>
    intro c
    rw [insertAll_cons]
    have h1 := ih (insertEntry c e)
    have h2 := odInsert_length_le (e.name1, e.name2) e c.entries
    show (insertAll (insertEntry c e) L).entries.length ≤ _
    have h3 : (insertEntry c e).entries.length ≤ c.entries.length + 1 := h2
    simp only [List.length_cons]
    omega

theorem sumFS_insertAll_le : ∀ (L : List Entry) (c : ShaderCache),
    sumFS (insertAll c L).entries ≤ sumFS c.entries + (L.map (fun e => e.file_size)).sum := by
  intro L
  induction L with
  | nil =>
    intro c
    show sumFS c.entries ≤ sumFS c.entries + 0
    omega
  | cons e L ih =>
    intro c
    rw [insertAll_cons]
    have h1 := ih (insertEntry c e)
    have h2 : sumFS (insertEntry c e).entries ≤ sumFS c.entries + e.file_size :=
      sumFS_odInsert_le (e.name1, e.name2) e c.entries
    simp only [List.map_cons, List.sum_cons]
    omega

theorem map_if_sentinel_id {f : (Nat × Nat) × Entry → (Nat × Nat) × Entry}
    {m : List ((Nat × Nat) × Entry)} (h : hasKey sentinelKey m = false) :
    m.map (fun p => if p.1 = sentinelKey then f p else p) = m := by
  rw [hasKey_false_iff] at h
  induction m with
  | nil => rfl
  | cons p rest ih =>
    rw [List.map_cons, if_neg (h p (by simp)), ih (fun q hq => h q (by simp [hq]))]

theorem updateHeaderFn_shape {c : ShaderCache} {s : Entry} {tl : List ((Nat × Nat) × Entry)}
    (hce : c.entries = (sentinelKey, s) :: tl) (htl : hasKey sentinelKey tl = false) :
    (updateHeaderFn c).entries =
      (sentinelKey, { s with
        file_offset := 0
        file_size := 32 * c.entries.length
        data := none }) :: tl := by
  show c.entries.map _ = _
  rw [hce, List.map_cons, if_pos rfl, map_if_sentinel_id htl]

theorem fresh_entries_eq :
    fresh.entries = [(sentinelKey,
      { name1 := FILECACHE_FILETABLE_NAME1, name2 := FILECACHE_FILETABLE_NAME2
        file_offset := 0, file_size := 32, reserved := 0, data := none })] := by
  decide

theorem updateHeaderFn_length (c : ShaderCache) :
    (updateHeaderFn c).entries.length = c.entries.length := by
  simp [updateHeaderFn]

theorem wfc_build {L : List Entry} (hins : ∀ e ∈ L, insOK e = true)
    (hcnt : 32 * (L.length + 1) < 2 ^ 32)
    (hsum : 160 + 32 * (L.length + 1) + (L.map (fun e => e.file_size)).sum < 2 ^ 64) :
    wfc (updateHeaderFn (insertAll fresh L)) = true := by
  obtain ⟨s, tl, hshape⟩ := insertAll_entries_head L fresh _ _ fresh_entries_eq
  have hnd0 : nodupKeysB (insertAll fresh L).entries = true :=
    insertAll_nodup L fresh (by decide)
  have htl : hasKey sentinelKey tl = false :=
    (nodupKeysB_cons.mp (hshape ▸ hnd0)).1
  have hndtl : nodupKeysB tl = true := (nodupKeysB_cons.mp (hshape ▸ hnd0)).2
  have hlen : (insertAll fresh L).entries.length ≤ L.length + 1 := by
    have h1 := insertAll_length_le L fresh
    rw [fresh_entries_eq] at h1
    simpa [Nat.add_comm] using h1
  have hsumle : sumFS (insertAll fresh L).entries ≤
      32 + (L.map (fun e => e.file_size)).sum := by
    have h1 := sumFS_insertAll_le L fresh
    rw [fresh_entries_eq] at h1
    simpa [sumFS, Nat.add_comm] using h1
  have hPall : ∀ p ∈ (insertAll fresh L).entries,
      (packOKBase p.2 = true ∧ entryKeyOK p = true) ∧
        (p.1 ≠ sentinelKey → dataOKb p.2 = true) := by
    refine @insertAll_forall (fun p => (packOKBase p.2 = true ∧ entryKeyOK p = true) ∧
      (p.1 ≠ sentinelKey → dataOKb p.2 = true)) L fresh ?_ ?_
    · intro p hp
      rw [fresh_entries_eq, List.mem_singleton] at hp
      rw [hp]
      exact ⟨⟨by decide, by decide⟩, fun hc => absurd rfl hc⟩
    · intro e he
      have h5 := hins e he
      simp only [insOK, Bool.and_eq_true, decide_eq_true_eq] at h5
      obtain ⟨⟨⟨⟨⟨h1, h2⟩, h3⟩, h4⟩, h6⟩, h7⟩ := h5
      refine ⟨⟨?_, ?_⟩, fun _ => h7⟩
      · simp only [packOKBase, Bool.and_eq_true, decide_eq_true_eq]
        exact ⟨⟨⟨h1, h2⟩, h3⟩, h4⟩
      · simp only [entryKeyOK, Bool.and_eq_true, decide_eq_true_eq]
        exact ⟨trivial, h6⟩
  have hslen : (insertAll fresh L).entries.length = tl.length + 1 := by
    rw [hshape]
    rfl
  have hs := (hPall (sentinelKey, s) (by rw [hshape]; simp)).1
  simp only [packOKBase, entryKeyOK, Bool.and_eq_true, decide_eq_true_eq] at hs
  obtain ⟨⟨⟨⟨hsn1, hsn2⟩, _⟩, hsres⟩, hskey, hsfree⟩ := hs
  have hst : sumFS (insertAll fresh L).entries = s.file_size + sumFS tl := by
    rw [hshape, sumFS_cons]
  apply wfc_intro (updateHeaderFn_shape hshape htl)
  · rw [updateHeaderFn_shape hshape htl]
    exact nodupKeysB_cons.mpr ⟨htl, hndtl⟩
  · intro p hp
    rw [updateHeaderFn_shape hshape htl] at hp
    rcases List.mem_cons.mp hp with he | he
    · rw [he]
      constructor
      · simp only [packOKBase, Bool.and_eq_true, decide_eq_true_eq]
        exact ⟨⟨⟨hsn1, hsn2⟩, by omega⟩, hsres⟩
      · simp only [entryKeyOK, Bool.and_eq_true, decide_eq_true_eq]
        exact ⟨hskey, hsfree⟩
    · exact (hPall p (by rw [hshape]; simp [he])).1
  · intro p hp hps
    rw [updateHeaderFn_shape hshape htl] at hp
    rcases List.mem_cons.mp hp with he | he
    · rw [he] at hps
      exact absurd rfl hps
    · exact (hPall p (by rw [hshape]; simp [he])).2 hps
  · rw [updateHeaderFn_length]
  · rfl
  · rfl
  · show (insertAll fresh L).header.magic = FILECACHE_MAGIC_V2
    rw [insertAll_header L fresh]
    decide
  · show (insertAll fresh L).header.extra_version < 2 ^ 32
    rw [insertAll_header L fresh]
    decide
  · show (insertAll fresh L).header.data_offset = 128
    rw [insertAll_header L fresh]
    decide
  · rfl
  · show 32 * (insertAll fresh L).entries.length =
      32 * (updateHeaderFn (insertAll fresh L)).entries.length
    rw [updateHeaderFn_length]
  · rw [updateHeaderFn_shape hshape htl, sumFS_cons]
    have hproj : (({ s with
        file_offset := 0
        file_size := 32 * (insertAll fresh L).entries.length
        data := none } : Entry)).file_size = 32 * (insertAll fresh L).entries.length := rfl
    show 128 + (((sentinelKey, ({ s with
        file_offset := 0
        file_size := 32 * (insertAll fresh L).entries.length
        data := none } : Entry)) : (Nat × Nat) × Entry).2.file_size + sumFS tl) < 2 ^ 64
    rw [show (((sentinelKey, ({ s with
        file_offset := 0
        file_size := 32 * (insertAll fresh L).entries.length
        data := none } : Entry)) : (Nat × Nat) × Entry).2.file_size) =
      32 * (insertAll fresh L).entries.length from rfl]
    omega

theorem alookup_cons (k : Nat × Nat) (p : (Nat × Nat) × Entry)
    (rest : List ((Nat × Nat) × Entry)) :
    alookup k (p :: rest) = if p.1 = k then some p.2 else alookup k rest := rfl

theorem alookup_none_of_hasKey_false {k : Nat × Nat} {m : List ((Nat × Nat) × Entry)}
    (h : hasKey k m = false) : alookup k m = none := by
  rw [hasKey_false_iff] at h
  induction m with
  | nil => rfl
  | cons p rest ih =>
    rw [alookup_cons, if_neg (h p (by simp))]
    exact ih (fun q hq => h q (by simp [hq]))

theorem alookup_some_of_hasKey {k : Nat × Nat} {m : List ((Nat × Nat) × Entry)}
    (h : hasKey k m = true) : ∃ e, alookup k m = some e := by
  induction m with
  | nil => simp [hasKey] at h
  | cons p rest ih =>
    by_cases hp : p.1 = k
    · exact ⟨p.2, by rw [alookup_cons, if_pos hp]⟩
    · rw [alookup_cons, if_neg hp]
      apply ih
      unfold hasKey at h ⊢
      rw [List.any_cons] at h
      rwa [decide_eq_false hp, Bool.false_or] at h

theorem alookup_odInsert (k k2 : Nat × Nat) (v : Entry) (m : List ((Nat × Nat) × Entry)) :
    alookup k (odInsert k2 v m) = if k2 = k then some v else alookup k m := by
  induction m with
  | nil =>
    show alookup k [(k2, v)] = _
    rw [alookup_cons]
  | cons p rest ih =>
    rw [odInsert]
    by_cases hp : p.1 = k2
    · rw [if_pos hp, alookup_cons, alookup_cons]
      by_cases hk : k2 = k
      · rw [if_pos hk, if_pos hk]
      · rw [if_neg hk, if_neg hk, if_neg (by rw [hp]; exact hk)]
    · rw [if_neg hp, alookup_cons, alookup_cons]
      by_cases hpk : p.1 = k
      · rw [if_pos hpk, if_pos hpk, if_neg (by rw [← hpk]; exact fun hc => hp hc.symm)]
      · rw [if_neg hpk, if_neg hpk, ih]

theorem hasKey_odUpdate_mono {k : Nat × Nat} :
    ∀ (other : List ((Nat × Nat) × Entry)) (m : List ((Nat × Nat) × Entry)),
      hasKey k m = true → hasKey k (odUpdate m other) = true := by
  intro other
  induction other with
  | nil => intro m h; exact h
  | cons p rest ih =>
    intro m h
    show hasKey k (odUpdate (odInsert p.1 p.2 m) rest) = true
    apply ih
    rw [hasKey_odInsert, h]
    rfl

theorem odUpdate_cons (m : List ((Nat × Nat) × Entry)) (p : (Nat × Nat) × Entry)
    (rest : List ((Nat × Nat) × Entry)) :
    odUpdate m (p :: rest) = odUpdate (odInsert p.1 p.2 m) rest := rfl

theorem alookup_odUpdate {k : Nat × Nat} :
    ∀ (other : List ((Nat × Nat) × Entry)), nodupKeysB other = true →
      ∀ (acc : List ((Nat × Nat) × Entry)),
        alookup k (odUpdate acc other) =
          (match alookup k other with
           | some e => some e
           | none => alookup k acc) := by
  intro other
  induction other with
  | nil => intro _ acc; rfl
  | cons p rest ih =>
    intro hnd acc
    obtain ⟨h1, h2⟩ := nodupKeysB_cons.mp hnd
    rw [odUpdate_cons, ih h2, alookup_cons]
    by_cases hp : p.1 = k
    · rw [if_pos hp]
      rw [alookup_none_of_hasKey_false (show hasKey k rest = false from hp ▸ h1)]
      rw [alookup_odInsert, if_pos hp]
    · rw [if_neg hp]
      cases hre : alookup k rest with
      | some e => rfl
      | none =>
        rw [alookup_odInsert, if_neg hp]

theorem foldl_odUpdate_lookup {k : Nat × Nat} :
    ∀ (rest : List ShaderCache), (∀ c ∈ rest, nodupKeysB c.entries = true) →
      ∀ (acc : List ((Nat × Nat) × Entry)),
        alookup k (rest.foldl (fun a c => odUpdate a c.entries) acc) =
          rest.foldl (fun r c =>
            match alookup k c.entries with
            | some e => some e
            | none => r) (alookup k acc) := by
  intro rest
  induction rest with
  | nil => intro _ acc; rfl
  | cons c rest ih =>
    intro hnd acc
    rw [List.foldl_cons, List.foldl_cons, ih (fun x hx => hnd x (by simp [hx])),
      alookup_odUpdate c.entries (hnd c (by simp)) acc]

theorem updateHeaderFn_keys (c : ShaderCache) :
    (updateHeaderFn c).entries.map Prod.fst = c.entries.map Prod.fst := by
  show (c.entries.map _).map Prod.fst = _
  rw [List.map_map]
  apply List.map_congr_left
  intro p _
  by_cases hp : p.1 = sentinelKey <;> simp [hp]

theorem hasKey_updateHeaderFn (k : Nat × Nat) (c : ShaderCache) :
    hasKey k (updateHeaderFn c).entries = hasKey k c.entries := by
  rw [hasKey_map_fst, updateHeaderFn_keys, ← hasKey_map_fst]

theorem alookup_map_if_sentinel {k : Nat × Nat} (hk : k ≠ sentinelKey)
    (f : (Nat × Nat) × Entry → Entry) :
    ∀ (m : List ((Nat × Nat) × Entry)),
      alookup k (m.map (fun p => if p.1 = sentinelKey then (p.1, f p) else p)) =
        alookup k m := by
  intro m
  induction m with
  | nil => rfl
  | cons p rest ih =>
    rw [List.map_cons]
    by_cases hs : p.1 = sentinelKey
    · rw [if_pos hs, alookup_cons, alookup_cons]
      have hpk : p.1 ≠ k := by rw [hs]; exact fun hc => hk hc.symm
      rw [if_neg hpk, if_neg hpk, ih]
    · rw [if_neg hs, alookup_cons, alookup_cons]
      by_cases hpk : p.1 = k
      · rw [if_pos hpk, if_pos hpk]
      · rw [if_neg hpk, if_neg hpk, ih]

theorem alookup_updateHeaderFn_ne {k : Nat × Nat} {c : ShaderCache} (hk : k ≠ sentinelKey) :
    alookup k (updateHeaderFn c).entries = alookup k c.entries := by
  exact alookup_map_if_sentinel hk _ c.entries

theorem alookup_append_left {k : Nat × Nat} {a b : List ((Nat × Nat) × Entry)}
    (h : hasKey k a = true) : alookup k (a ++ b) = alookup k a := by
  induction a with
  | nil => simp [hasKey] at h
  | cons p rest ih =>
    rw [List.cons_append, alookup_cons, alookup_cons]
    by_cases hp : p.1 = k
    · rw [if_pos hp, if_pos hp]
    · rw [if_neg hp, if_neg hp]
      apply ih
      unfold hasKey at h ⊢
      rw [List.any_cons] at h
      rwa [decide_eq_false hp, Bool.false_or] at h

theorem nodupB_iff (l : List (Nat × Nat)) : nodupB l = true ↔ l.Nodup := by
  induction l with
  | nil => simp [nodupB]
  | cons k rest ih =>
    rw [nodupB, Bool.and_eq_true, ih, List.nodup_cons]
    constructor
    · rintro ⟨h1, h2⟩
      refine ⟨?_, h2⟩
      intro hc
      rw [Bool.not_eq_true', List.any_eq_false] at h1
      have h3 := h1 k hc
      simp at h3
    · rintro ⟨h1, h2⟩
      refine ⟨?_, h2⟩
      rw [Bool.not_eq_true', List.any_eq_false]
      intro x hx
      simp only [decide_eq_true_eq]
      intro hc
      rw [hc] at hx
      exact h1 hx

theorem filter_key_length (src : List ((Nat × Nat) × Entry)) (q : Nat × Nat → Bool) :
    (src.filter (fun p => q p.1)).length = ((src.map Prod.fst).filter q).length := by
  rw [← List.countP_eq_length_filter, ← List.countP_eq_length_filter, List.countP_map]
  rfl

theorem nodup_keys_of_nodupKeysB {src : List ((Nat × Nat) × Entry)}
    (h : nodupKeysB src = true) : (src.map Prod.fst).Nodup :=
  (nodupB_iff _).mp h

theorem filter_keys_card (src : List ((Nat × Nat) × Entry)) (q : Nat × Nat → Bool)
    (hnd : nodupKeysB src = true) :
    (src.filter (fun p => q p.1)).length =
      ((src.map Prod.fst).filter q).toFinset.card := by
  rw [filter_key_length, List.toFinset_card_of_nodup ((nodup_keys_of_nodupKeysB hnd).filter q)]

theorem sdiff_keys_eq (src T : List ((Nat × Nat) × Entry)) :
    ((src.map Prod.fst).filter (fun k => !hasKey k T)).toFinset =
      keysOf src \ keysOf T := by
  ext k
  rw [List.mem_toFinset, List.mem_filter, Finset.mem_sdiff]
  unfold keysOf
  rw [List.mem_toFinset, List.mem_toFinset]
  constructor
  · rintro ⟨h1, h2⟩
    refine ⟨h1, fun hc => ?_⟩
    rw [Bool.not_eq_true', hasKey_false_iff] at h2
    obtain ⟨q, hq, he⟩ := List.mem_map.mp hc
    exact h2 q hq he
  · rintro ⟨h1, h2⟩
    refine ⟨h1, ?_⟩
    rw [Bool.not_eq_true', hasKey_false_iff]
    intro q hq he
    rw [← he] at h2
    exact h2 (List.mem_map_of_mem Prod.fst hq)

theorem inter_keys_eq (src T : List ((Nat × Nat) × Entry)) :
    ((src.map Prod.fst).filter (fun k => hasKey k T)).toFinset =
      keysOf src ∩ keysOf T := by
  ext k
  rw [List.mem_toFinset, List.mem_filter, Finset.mem_inter]
  unfold keysOf
  rw [List.mem_toFinset, List.mem_toFinset]
  constructor
  · rintro ⟨h1, h2⟩
    obtain ⟨q, hq, he⟩ := (hasKey_iff _ _).mp h2
    refine ⟨h1, ?_⟩
    rw [← he]
    exact List.mem_map_of_mem Prod.fst hq
  · rintro ⟨h1, h2⟩
    refine ⟨h1, ?_⟩
    rw [hasKey_iff]
    obtain ⟨q, hq, he⟩ := List.mem_map.mp h2
    exact ⟨q, hq, he⟩

theorem sumFS_map_if_sentinel (n : Nat) :
    ∀ (m : List ((Nat × Nat) × Entry)), hasKey sentinelKey m = true → nodupKeysB m = true →
      sumFS (m.map (fun p => if p.1 = sentinelKey then
        (p.1, { p.2 with file_offset := 0, file_size := 32 * n, data := none }) else p)) =
        32 * n + sumFS (m.filter (fun p => p.1 ≠ sentinelKey)) := by
  intro m
  induction m with
  | nil => intro hk _; simp [hasKey] at hk
  | cons p rest ih =>
    intro hk hnd
    obtain ⟨h1, h2⟩ := nodupKeysB_cons.mp hnd
    rw [List.map_cons, List.filter_cons]
    by_cases hp : p.1 = sentinelKey
    · have hrest : rest.map (fun p => if p.1 = sentinelKey then
          (p.1, { p.2 with file_offset := 0, file_size := 32 * n, data := none }) else p) =
          rest := map_if_sentinel_id (hp ▸ h1)
      have hfil : rest.filter (fun p => p.1 ≠ sentinelKey) = rest := by
        apply List.filter_eq_self.mpr
        intro q hq
        have h3 := (hasKey_false_iff _ _).mp (hp ▸ h1) q hq
        simp only [decide_eq_true_eq]
        exact h3
      rw [if_pos hp, hrest, sumFS_cons]
      rw [show ((p.1, ({ p.2 with file_offset := 0, file_size := 32 * n, data := none } : Entry)) : (Nat × Nat) × Entry).2.file_size = 32 * n from rfl]
      rw [show (decide (p.1 ≠ sentinelKey)) = false from by simp [hp]]
      rw [if_neg Bool.false_ne_true, hfil]
    · have hk2 : hasKey sentinelKey rest = true := by
        unfold hasKey at hk ⊢
        rw [List.any_cons] at hk
        rwa [decide_eq_false hp, Bool.false_or] at hk
      rw [if_neg hp, sumFS_cons]
      rw [show (decide (p.1 ≠ sentinelKey)) = true from by simp [hp]]
      rw [if_pos rfl, sumFS_cons, ih hk2 h2]
      omega

theorem sumFS_updateHeaderFn {c : ShaderCache} (hk : hasKey sentinelKey c.entries = true)
    (hnd : nodupKeysB c.entries = true) :
    sumFS (updateHeaderFn c).entries =
      32 * c.entries.length + sumFS (c.entries.filter (fun p => p.1 ≠ sentinelKey)) := by
  exact sumFS_map_if_sentinel c.entries.length c.entries hk hnd

theorem loadRaw_inv {d : List Nat} {c0 : ShaderCache} (h : loadRaw d = Except.ok c0) :
    c0.original_size = d.length ∧
      ∃ m1, c0.entries = attachPayloads d c0.header.data_offset m1 := by
  unfold loadRaw at h
  split at h
  · exact absurd h (by simp)
  · split at h
    · split at h
      · split at h
        · exact absurd h (by simp)
        · simp only [Except.ok.injEq] at h
          rw [← h]
          exact ⟨rfl, ⟨_, rfl⟩⟩
      · exact absurd h (by simp)
    · exact absurd h (by simp)

theorem load_inv {d : List Nat} {c : ShaderCache} (h : load d = Except.ok c) :
    ∃ c0, loadRaw d = Except.ok c0 ∧ hasKey sentinelKey c0.entries = true ∧
      c = updateHeaderFn c0 := by
  unfold load at h
  split at h
  case h_1 c1 heq =>
    unfold update_header at h
    split at h
    · simp only [Except.ok.injEq] at h
      refine ⟨c1, heq, ?_, h.symm⟩
      assumption
    · exact absurd h (by simp)
  case h_2 e heq =>
    exact absurd h (by simp)

theorem filter_sentinel_nil {tl : List ((Nat × Nat) × Entry)}
    (h : hasKey sentinelKey tl = false) :
    tl.filter (fun p => p.1 = sentinelKey) = [] := by
  rw [hasKey_false_iff] at h
  induction tl with
  | nil => rfl
  | cons p rest ih =>
    rw [List.filter_cons]
    rw [show (decide (p.1 = sentinelKey)) = false from decide_eq_false (h p (by simp))]
    rw [if_neg Bool.false_ne_true]
    exact ih (fun q hq => h q (by simp [hq]))

theorem slice_length_le (d : List Nat) (off len : Nat) : (slice d off len).length ≤ len := by
  unfold slice
  rw [List.length_take]
  exact Nat.min_le_left _ _

theorem mem_updateHeaderFn_ne {c : ShaderCache} {p : (Nat × Nat) × Entry}
    (hp : p ∈ (updateHeaderFn c).entries) (hps : p.1 ≠ sentinelKey) : p ∈ c.entries := by
  have hp2 : p ∈ c.entries.map (fun p =>
      if p.1 = sentinelKey then
        (p.1, { p.2 with file_offset := 0, file_size := 32 * c.entries.length, data := none })
      else p) := hp
  obtain ⟨q, hq, he⟩ := List.mem_map.mp hp2
  by_cases hqs : q.1 = sentinelKey
  · rw [if_pos hqs] at he
    rw [← he] at hps
    exact absurd hqs hps
  · rw [if_neg hqs] at he
    rw [← he]
    exact hq

theorem writeReady_updateHeaderFn {c : ShaderCache}
    (hk : hasKey sentinelKey c.entries = true)
    (hd : ∀ p ∈ c.entries, p.1 ≠ sentinelKey → dataOKb p.2 = true) :
    writeReady (updateHeaderFn c) = true := by
  unfold writeReady
  rw [Bool.and_eq_true, List.all_eq_true]
  refine ⟨by rw [hasKey_updateHeaderFn]; exact hk, ?_⟩
  intro p hp
  have hp2 : p ∈ c.entries.map (fun p =>
      if p.1 = sentinelKey then
        (p.1, { p.2 with file_offset := 0, file_size := 32 * c.entries.length, data := none })
      else p) := hp
  obtain ⟨q, hq, he⟩ := List.mem_map.mp hp2
  by_cases hqs : q.1 = sentinelKey
  · rw [if_pos hqs] at he
    rw [← he]
    rw [if_pos hqs]
    simp only [decide_eq_true_eq]
    show 32 * c.entries.length = 32 * (updateHeaderFn c).entries.length
    rw [updateHeaderFn_length]
  · rw [if_neg hqs] at he
    rw [← he, if_neg hqs]
    exact hd q hq hqs

theorem map_meta2_setSentinelData (td : List Nat) (m : List ((Nat × Nat) × Entry)) :
    (setSentinelData td m).map (fun p => metaOf p.2) = m.map (fun p => metaOf p.2) := by
  unfold setSentinelData
  rw [List.map_map]
  apply List.map_congr_left
  intro p _
  by_cases hps : p.1 = sentinelKey <;> simp [hps, metaOf]

theorem hasKey_foldl_odUpdate {k : Nat × Nat} :
    ∀ (rest : List ShaderCache) (acc : List ((Nat × Nat) × Entry)),
      hasKey k acc = true →
      hasKey k (rest.foldl (fun a c => odUpdate a c.entries) acc) = true := by
  intro rest
  induction rest with
  | nil => intro acc h; exact h
  | cons c rest ih =>
    intro acc h
    rw [List.foldl_cons]
    exact ih _ (hasKey_odUpdate_mono c.entries acc h)

theorem merge_def (t : ShaderCache) (src : List ((Nat × Nat) × Entry)) :
    merge t src =
      if (src.filter (fun p => !hasKey p.1 t.entries)).length = 0 then
        Except.ok (t, { addedCount := 0
                        duplicateCount := (src.filter (fun p => hasKey p.1 t.entries)).length
                        noop := true })
      else
        match update_header { t with
            entries := t.entries ++ src.filter (fun p => !hasKey p.1 t.entries) } with
        | Except.ok t2 =>
            Except.ok (t2, { addedCount := (src.filter (fun p => !hasKey p.1 t.entries)).length
                             duplicateCount := (src.filter (fun p => hasKey p.1 t.entries)).length
                             noop := false })
        | Except.error e => Except.error e := rfl

theorem merge_newLen_card {t : ShaderCache} {src : List ((Nat × Nat) × Entry)}
    (hnd : nodupKeysB src = true) :
    (src.filter (fun p => !hasKey p.1 t.entries)).length =
      (keysOf src \ keysOf t.entries).card := by
  rw [filter_keys_card src (fun k => !hasKey k t.entries) hnd, sdiff_keys_eq]

theorem merge_dupLen_card {t : ShaderCache} {src : List ((Nat × Nat) × Entry)}
    (hnd : nodupKeysB src = true) :
    (src.filter (fun p => hasKey p.1 t.entries)).length =
      (keysOf src ∩ keysOf t.entries).card := by
  rw [filter_keys_card src (fun k => hasKey k t.entries) hnd, inter_keys_eq]

set_option maxRecDepth 8000 in
/-- Claim C1 (corrected; counterexample `claim_C1_counterexample`): the claim
as frozen quantifies over arbitrary inserted entries, but an entry keyed by
the reserved free-slot identifier `(0, 0)` is silently dropped by the load
of the serialized bytes, so its payload is not preserved. -/
theorem claim_C1_counterexample :
    nonSentinelView cache00 = [((0, 0), 1, some [7])] ∧
    (load (write cache00).1).toOption.map nonSentinelView = some [] := by
  constructor
  · rfl
  · rfl

/-- Claim C1 (amended): for a container built by fresh construction, any
number of insertions of entries whose identifier is not the reserved
free-slot pair `(0, 0)`, whose fields fit the format's fixed widths, and
whose payload length equals `file_size`, followed by Normalization:
serializing and loading the bytes yields a container whose non-sentinel
entry mapping (identifiers, `file_size` values, payload bytes) equals the
original's, and re-serializing the loaded container emits byte-identical
output, so the regenerated sentinel payload carries the same table
content. -/
theorem claim_C1 (L : List Entry) (hins : ∀ e ∈ L, insOK e = true)
    (hcnt : 32 * (L.length + 1) < 2 ^ 32)
    (hsum : 160 + 32 * (L.length + 1) + (L.map (fun e => e.file_size)).sum < 2 ^ 64) :
    write (updateHeaderFn (insertAll fresh L)) =
      (outBytes (updateHeaderFn (insertAll fresh L)),
        Except.ok (postWrite (updateHeaderFn (insertAll fresh L)))) ∧
    load (outBytes (updateHeaderFn (insertAll fresh L))) =
      Except.ok (loadedOf (updateHeaderFn (insertAll fresh L))) ∧
    nonSentinelView (loadedOf (updateHeaderFn (insertAll fresh L))) =
      nonSentinelView (updateHeaderFn (insertAll fresh L)) ∧
    (write (loadedOf (updateHeaderFn (insertAll fresh L)))).1 =
      outBytes (updateHeaderFn (insertAll fresh L)) ∧
    (write (loadedOf (updateHeaderFn (insertAll fresh L)))).2 =
      Except.ok (postWrite (loadedOf (updateHeaderFn (insertAll fresh L)))) := by
  have hw := wfc_build hins hcnt hsum
  refine ⟨write_eq (wfc_writeReady hw), load_outBytes hw, nonSentinelView_loadedOf _, ?_, ?_⟩
  · rw [write_eq (wfc_writeReady (wfc_loadedOf hw))]
    exact outBytes_loadedOf hw
  · rw [write_eq (wfc_writeReady (wfc_loadedOf hw))]

theorem claim_C1_witness :
    (∀ e ∈ [entA], insOK e = true) ∧ 32 * (1 + 1) < 2 ^ 32 ∧
    160 + 32 * (1 + 1) + 3 < 2 ^ 64 ∧
    ((load (outBytes (updateHeaderFn (insertAll fresh [entA])))).toOption.map
      nonSentinelView = some (nonSentinelView (updateHeaderFn (insertAll fresh [entA])))) := by
  refine ⟨by decide, by decide, by decide, ?_⟩
  obtain ⟨h1, h2, h3, h4, h5⟩ := claim_C1 [entA] (by decide) (by decide) (by decide)
  rw [h2]
  rw [Except.toOption, Option.map]
  rw [h3]

/-- Claim C2 (corrected; counterexample `claim_C2_counterexample`): right
after construction (or after any Normalization) the sentinel entry's cached
payload is cleared to nothing, so decoding it cannot reproduce the entry
mapping; the self-describing payload only exists after serialization fills
it in. -/
theorem claim_C2_counterexample :
    hasKey sentinelKey fresh.entries = true ∧ fresh.entries.length = 1 ∧
    sentinelTableDecode fresh = none := by
  refine ⟨by decide, by decide, ?_⟩
  rfl

/-- Claim C2 (amended): after fresh construction, load, or any
mutation + Normalization, exactly one entry carries the sentinel
identifier; its cached payload is cleared (`None`) by Normalization; after
a serialization the sentinel's payload is the packed table, and decoding
it as a sequence of 32-byte Entry records reproduces the metadata of the
full current mapping — every entry, the sentinel itself included, in
mapping order, each record carrying the entry's own identifier. -/
theorem claim_C2 (c : ShaderCache) (e0 : Entry) (tl : List ((Nat × Nat) × Entry))
    (h : wfc c = true) (hce : c.entries = (sentinelKey, e0) :: tl) :
    (c.entries.filter (fun p => p.1 = sentinelKey)).length = 1 ∧
    alookup sentinelKey c.entries = some e0 ∧ e0.data = none ∧
    sentinelTableDecode c = none ∧
    write c = (outBytes c, Except.ok (postWrite c)) ∧
    sentinelTableDecode (postWrite c) =
      some ((postWrite c).entries.map (fun p => metaOf p.2)) ∧
    (∀ p ∈ (postWrite c).entries, p.1 = (p.2.name1, p.2.name2)) := by
  obtain ⟨⟨e0x, tlx, hcex, hfsx, hfox, hdnx⟩, hnd, hpk, hdat, hmag, hev, hdo, hfto, hfts,
    hsum⟩ := wfc_parts h
  rw [hce] at hcex
  simp only [List.cons.injEq, Prod.mk.injEq] at hcex
  obtain ⟨⟨_, he0⟩, htlx⟩ := hcex
  rw [← he0] at hfsx hfox hdnx
  have htl : hasKey sentinelKey tl = false :=
    (nodupKeysB_cons.mp (hce ▸ hnd)).1
  have halk : alookup sentinelKey c.entries = some e0 := by
    rw [hce, alookup_cons, if_pos rfl]
  have hpost := postEnts_cons hce htl
  have hpck1 : ∀ p ∈ assignOffsets 0 c.entries, packOK p.2 = true :=
    assignOffsets_packOK (fun p hp => (hpk p hp).1) (by omega)
  have hlen1 : (postEnts c).length = c.entries.length := postEnts_length c
  have hlen2 : (assignOffsets 0 c.entries).length = c.entries.length :=
    assignOffsets_length 0 c.entries
  refine ⟨?_, halk, hdnx, ?_, write_eq (wfc_writeReady h), ?_, ?_⟩
  · rw [hce, List.filter_cons]
    rw [show (decide ((sentinelKey, e0).1 = sentinelKey)) = true from by simp]
    rw [if_pos rfl, filter_sentinel_nil htl]
    rfl
  · unfold sentinelTableDecode
    rw [halk]
    show (match e0.data with
      | some d => readEntries d 0 c.entries.length
      | none => none) = none
    rw [hdnx]
  · unfold sentinelTableDecode
    show (match alookup sentinelKey (postEnts c) with
      | some e => match e.data with
        | some d => readEntries d 0 (postWrite c).entries.length
        | none => none
      | none => none) = _
    rw [hpost, alookup_cons, if_pos rfl]
    show readEntries (tableBytes (assignOffsets 0 c.entries)) 0
      (postWrite c).entries.length = _
    have hre := readEntries_table (assignOffsets 0 c.entries) [] [] hpck1
    rw [List.nil_append, List.append_nil] at hre
    simp only [List.length_nil] at hre
    show readEntries (tableBytes (assignOffsets 0 c.entries)) 0 (postEnts c).length = _
    rw [hlen1, ← hlen2, hre]
    show _ = some ((postEnts c).map (fun p => metaOf p.2))
    unfold postEnts
    rw [map_meta2_setSentinelData]
  · intro p hp
    have hp2 : p ∈ postEnts c := hp
    unfold postEnts setSentinelData at hp2
    obtain ⟨q, hq, he⟩ := List.mem_map.mp hp2
    obtain ⟨sq, hsq, hs1, hn1, hn2, _, _, _⟩ := assignOffsets_mem q hq
    have hkq := (hpk sq hsq).2
    simp only [entryKeyOK, Bool.and_eq_true, decide_eq_true_eq] at hkq
    by_cases hqs : q.1 = sentinelKey
    · rw [if_pos hqs] at he
      rw [← he]
      show q.1 = (q.2.name1, q.2.name2)
      rw [← hs1, ← hn1, ← hn2]
      exact hkq.1
    · rw [if_neg hqs] at he
      rw [← he]
      rw [← hs1, ← hn1, ← hn2]
      exact hkq.1

theorem claim_C2_witness :
    wfc cacheA = true ∧
    sentinelTableDecode (postWrite cacheA) =
      some ((postWrite cacheA).entries.map (fun p => metaOf p.2)) := by
  refine ⟨by decide, ?_⟩
  exact (claim_C2 cacheA _ _ (by decide) rfl).2.2.2.2.2.1

/-- Claim C3 (corrected; counterexample `claim_C3_counterexample`): load
does not bounds-check the payload slice; a payload range reaching past the
buffer silently yields a truncated (even empty) payload and the load still
succeeds, so the claimed `FormatError` is never raised there and a loaded
entry's payload can be shorter than its `file_size`. -/
theorem claim_C3_counterexample :
    (load cex3bytes).toOption.map (fun c => c.entries.length) = some 2 ∧
    ((load cex3bytes).toOption.bind (fun c => alookup (1, 2) c.entries)).map
      (fun e => (e.file_size, e.data.map List.length)) = some (100, some 0) := by
  constructor
  · rfl
  · rfl

/-- Claim C3 (amended): for every successfully loaded container, every
non-sentinel entry's payload is exactly the Python slice
`data[data_offset + file_offset : data_offset + file_offset + file_size]`
of the input buffer — a slice whose length is at most, but not necessarily
equal to, `file_size`; an out-of-range payload range is silently truncated
rather than raising `FormatError`. -/
theorem claim_C3 (d : List Nat) (c : ShaderCache) (h : load d = Except.ok c) :
    ∀ p ∈ c.entries, p.1 ≠ sentinelKey →
      p.2.data = some (slice d (c.header.data_offset + p.2.file_offset) p.2.file_size) ∧
      (slice d (c.header.data_offset + p.2.file_offset) p.2.file_size).length ≤
        p.2.file_size := by
  obtain ⟨c0, hlr, hk, rfl⟩ := load_inv h
  obtain ⟨_, m1, hent⟩ := loadRaw_inv hlr
  intro p hp hps
  have hmem : p ∈ c0.entries := mem_updateHeaderFn_ne hp hps
  rw [hent] at hmem
  unfold attachPayloads at hmem
  obtain ⟨r, hr, he⟩ := List.mem_map.mp hmem
  refine ⟨?_, slice_length_le _ _ _⟩
  rw [← he]
  show some (slice d (c0.header.data_offset + r.2.file_offset) r.2.file_size) = _
  rfl

theorem claim_C3_witness :
    load cex3bytes = Except.ok cex3cache ∧ cex3entry ∈ cex3cache.entries ∧
    cex3entry.1 ≠ sentinelKey ∧
    cex3entry.2.data = some (slice cex3bytes
      (cex3cache.header.data_offset + cex3entry.2.file_offset) cex3entry.2.file_size) := by
  refine ⟨rfl, by decide, by decide, ?_⟩
  exact (claim_C3 cex3bytes cex3cache rfl cex3entry (by decide) (by decide)).1

/-- Claim C4 (corrected; counterexample `claim_C4_counterexample`): the
sentinel key is present in both target and source, so it counts as a
duplicate, yet the closing Normalization rewrites its `file_size` to the
grown table size — a key already in the target does not keep its metadata
unchanged. -/
theorem claim_C4_counterexample :
    hasKey sentinelKey cacheA.entries = true ∧
    hasKey sentinelKey cacheS.entries = true ∧
    (alookup sentinelKey cacheA.entries).map Entry.file_size = some 64 ∧
    ((merge cacheA cacheS.entries).toOption.bind
      (fun r => alookup sentinelKey r.1.entries)).map Entry.file_size = some 96 := by
  refine ⟨by decide, by decide, by decide, by decide⟩

/-- Claim C4 (amended): merging a source mapping into a target whose
mapping holds the sentinel reports `addedCount = |keys(S) − keys(T)|` and
`duplicateCount = |keys(S) ∩ keys(T)|`; every NON-SENTINEL key already in
the target keeps its entry (payload and metadata) unchanged, while the
sentinel entry's metadata is renormalized to the grown table; if
`keys(S) ⊆ keys(T)` the operation reports a no-op and returns the target
entirely unchanged. -/
theorem claim_C4 (t : ShaderCache) (src : List ((Nat × Nat) × Entry))
    (hsk : hasKey sentinelKey t.entries = true) (hnd : nodupKeysB src = true) :
    (merge t src).toOption.map (fun r => (r.2.addedCount, r.2.duplicateCount)) =
      some ((keysOf src \ keysOf t.entries).card, (keysOf src ∩ keysOf t.entries).card) ∧
    (∀ k : Nat × Nat, k ≠ sentinelKey → hasKey k t.entries = true →
      (merge t src).toOption.bind (fun r => alookup k r.1.entries) = alookup k t.entries) ∧
    (keysOf src \ keysOf t.entries = ∅ →
      merge t src = Except.ok (t,
        { addedCount := 0
          duplicateCount := (keysOf src ∩ keysOf t.entries).card
          noop := true })) ∧
    (merge t src).toOption.map (fun r => r.2.noop) =
      some (decide ((keysOf src \ keysOf t.entries) = ∅)) := by
  have hnew := @merge_newLen_card t src hnd
  have hdup := @merge_dupLen_card t src hnd
  by_cases hz : (src.filter (fun p => !hasKey p.1 t.entries)).length = 0
  · have hmz : merge t src = Except.ok (t,
        { addedCount := 0
          duplicateCount := (src.filter (fun p => hasKey p.1 t.entries)).length
          noop := true }) := by
      rw [merge_def, if_pos hz]
    have hsd : keysOf src \ keysOf t.entries = ∅ := by
      rw [hnew] at hz
      exact Finset.card_eq_zero.mp hz
    refine ⟨?_, ?_, ?_, ?_⟩
    · rw [hmz]
      simp only [Except.toOption, Option.map]
      rw [hdup, hsd, Finset.card_empty]
    · intro k _ _
      rw [hmz]
      simp only [Except.toOption, Option.bind]
    · intro _
      rw [hmz, hdup]
    · rw [hmz]
      simp only [Except.toOption, Option.map]
      rw [hsd]
      simp
  · have hkap : hasKey sentinelKey
        (t.entries ++ src.filter (fun p => !hasKey p.1 t.entries)) = true := by
      rw [hasKey_append, hsk, Bool.true_or]
    have hmo : merge t src = Except.ok
        (updateHeaderFn { t with
          entries := t.entries ++ src.filter (fun p => !hasKey p.1 t.entries) },
        { addedCount := (src.filter (fun p => !hasKey p.1 t.entries)).length
          duplicateCount := (src.filter (fun p => hasKey p.1 t.entries)).length
          noop := false }) := by
      rw [merge_def, if_neg hz]
      unfold update_header
      rw [if_pos hkap]
    have hsd : keysOf src \ keysOf t.entries ≠ ∅ := by
      intro he
      rw [hnew, he, Finset.card_empty] at hz
      exact hz rfl
    refine ⟨?_, ?_, ?_, ?_⟩
    · rw [hmo]
      simp only [Except.toOption, Option.map]
      rw [hnew, hdup]
    · intro k hk hkt
      rw [hmo]
      simp only [Except.toOption, Option.bind]
      rw [alookup_updateHeaderFn_ne hk]
      exact alookup_append_left hkt
    · intro he
      exact absurd he hsd
    · rw [hmo]
      simp only [Except.toOption, Option.map]
      rw [decide_eq_false hsd]

theorem claim_C4_witness :
    hasKey sentinelKey cacheA.entries = true ∧ nodupKeysB cacheS.entries = true ∧
    (merge cacheA cacheS.entries).toOption.map
      (fun r => (r.2.addedCount, r.2.duplicateCount)) =
      some ((keysOf cacheS.entries \ keysOf cacheA.entries).card,
        (keysOf cacheS.entries ∩ keysOf cacheA.entries).card) :=
  ⟨by decide, by decide, (claim_C4 cacheA cacheS.entries (by decide) (by decide)).1⟩

/-- Claim C5 (confirmed): a successful serialization of a well-formed
(sentinel-first) container emits exactly the 128-byte packed header, then
the 32-bytes-per-entry table in the sentinel's (first) payload slot, then
every remaining entry's payload contiguously; entry offsets are assigned
by a running counter starting at 0 advancing by `file_size` in mapping
order. -/
theorem claim_C5 (c : ShaderCache) (e0 : Entry) (tl : List ((Nat × Nat) × Entry))
    (h : wfc c = true) (hce : c.entries = (sentinelKey, e0) :: tl) :
    write c = (outBytes c, Except.ok (postWrite c)) ∧
    (pack_header c.header).length = 128 ∧
    outBytes c = pack_header c.header ++ (tableBytes (assignOffsets 0 c.entries) ++
      joinPayloads (assignOffsets (0 + e0.file_size) tl)) ∧
    (tableBytes (assignOffsets 0 c.entries)).length = 32 * c.entries.length ∧
    postEnts c = (sentinelKey,
      { e0 with
          file_offset := 0
          data := some (tableBytes (assignOffsets 0 c.entries)) }) ::
      assignOffsets (0 + e0.file_size) tl ∧
    offsetsRunning 0 (postWrite c).entries := by
  obtain ⟨_, hnd, _, _, _, _, _, _, _, _⟩ := wfc_parts h
  have htl : hasKey sentinelKey tl = false :=
    (nodupKeysB_cons.mp (hce ▸ hnd)).1
  refine ⟨write_eq (wfc_writeReady h), pack_header_length _, outBytes_split hce htl,
    ?_, postEnts_cons hce htl, ?_⟩
  · rw [tableBytes_length, assignOffsets_length]
  · show offsetsRunning 0 (postEnts c)
    unfold postEnts
    exact offsetsRunning_setSentinelData (offsetsRunning_assignOffsets 0 c.entries)

theorem claim_C5_witness :
    wfc cacheA = true ∧ write cacheA = (outBytes cacheA, Except.ok (postWrite cacheA)) := by
  refine ⟨by decide, ?_⟩
  obtain ⟨e0, tl, hce⟩ : ∃ e0 tl, cacheA.entries = (sentinelKey, e0) :: tl := ⟨_, _, rfl⟩
  exact (claim_C5 cacheA e0 tl (by decide) hce).1

/-- Claim C6 (corrected; counterexample `claim_C6_counterexample`): the
length check happens per entry inside the output loop, after the header
(and any earlier payloads) have already been written — a `ConsistencyError`
is raised with bytes already emitted, not before writing any output. -/
theorem claim_C6_counterexample :
    (write cacheBad).2 = Except.error CacheError.consistencyError ∧
    (write cacheBad).1.length = 192 := by
  constructor
  · rfl
  · rfl

/-- Claim C6 (amended): serialization checks, for each entry as it is
written, that the payload length equals the declared `file_size`, and
raises a fatal `ConsistencyError` when a non-sentinel entry violates it —
but the 128-byte header (at least) has already been emitted by then; if
every non-sentinel entry satisfies the invariant (as Normalization
guarantees), the error branch is not taken and serialization completes. -/
theorem claim_C6 (c : ShaderCache) (hk : hasKey sentinelKey c.entries = true) :
    ((∀ p ∈ c.entries, p.1 ≠ sentinelKey → dataOKb p.2 = true) →
      (write (updateHeaderFn c)).2 = Except.ok (postWrite (updateHeaderFn c))) ∧
    (∀ p ∈ c.entries, p.1 ≠ sentinelKey → dataOKb p.2 = false →
      (write c).2 = Except.error CacheError.consistencyError) ∧
    128 ≤ (write c).1.length := by
  refine ⟨?_, ?_, write_emits_header c⟩
  · intro hd
    rw [write_eq (writeReady_updateHeaderFn hk hd)]
  · intro p hp hps hbad
    exact write_fail hk hp hps hbad

theorem claim_C6_witness :
    hasKey sentinelKey cacheBad.entries = true ∧
    ((9, 9), entBad) ∈ cacheBad.entries ∧
    (write cacheBad).2 = Except.error CacheError.consistencyError := by
  refine ⟨by decide, by decide, ?_⟩
  exact (claim_C6 cacheBad (by decide)).2.1 ((9, 9), entBad) (by decide) (by decide) (by decide)

/-- Claim C7 (confirmed): `calc_size` returns exactly 128 plus the sum of
`file_size` over all entries, sentinel included; after Normalization that
is 128 + 32·(number of entries) + (sum of the non-sentinel sizes); and
loading the minimal valid empty container yields zero non-sentinel entries
with `calc_size` = 160. -/
theorem claim_C7 (c : ShaderCache) (hk : hasKey sentinelKey c.entries = true)
    (hnd : nodupKeysB c.entries = true) :
    calc_size c = 128 + sumFS c.entries ∧
    calc_size (updateHeaderFn c) =
      128 + 32 * c.entries.length +
        sumFS (c.entries.filter (fun p => p.1 ≠ sentinelKey)) ∧
    (load minimalBytes).toOption.map
      (fun c2 => ((c2.entries.filter (fun p => p.1 ≠ sentinelKey)).length, calc_size c2)) =
      some (0, 160) := by
  refine ⟨rfl, ?_, by decide⟩
  show 128 + sumFS (updateHeaderFn c).entries = _
  rw [sumFS_updateHeaderFn hk hnd]
  omega

theorem claim_C7_witness :
    hasKey sentinelKey cacheA.entries = true ∧ nodupKeysB cacheA.entries = true ∧
    calc_size (updateHeaderFn cacheA) = 128 + 32 * cacheA.entries.length +
      sumFS (cacheA.entries.filter (fun p => p.1 ≠ sentinelKey)) :=
  ⟨by decide, by decide, (claim_C7 cacheA (by decide) (by decide)).2.1⟩

/-- Claim C8 (corrected; counterexample `claim_C8_counterexample`): the
decode threshold is the 24-byte `=IIQQ` record, not 16 bytes — a 16-byte
payload meets the claimed bound yet still fails with `FormatError`. -/
theorem claim_C8_counterexample :
    entShort.data.map List.length = some 16 ∧
    exportFilename entShort = Except.error CacheError.formatError := by
  constructor
  · rfl
  · rfl

/-- Claim C8 (amended): exporting an entry decodes the first 24 bytes of
its payload as the `=IIQQ` shader-unit header (failing with `FormatError`
on a payload shorter than 24 bytes, not 16), and names the output
`<label>_<name1:016x>_<name2:016x>.bin` where the label maps 0→VERTEX,
1→GEOMETRY, 2→PIXEL and any other type to an UNKNOWN label carrying the
raw numeric type. -/
theorem claim_C8 (e : Entry) (d : List Nat) (hd : e.data = some d) :
    (d.length < 24 → exportFilename e = Except.error CacheError.formatError) ∧
    (24 ≤ d.length → exportFilename e = Except.ok
      (typeLabel (fromLE (slice d 4 4)) ++ "_" ++ hex16 (fromLE (slice d 8 8)) ++ "_" ++
        hex16 (fromLE (slice d 16 8)) ++ ".bin")) ∧
    typeLabel 0 = "VERTEX" ∧ typeLabel 1 = "GEOMETRY" ∧ typeLabel 2 = "PIXEL" ∧
    (∀ t : Nat, 3 ≤ t → typeLabel t = "UNKNOWN_" ++ toString t) := by
  refine ⟨?_, ?_, rfl, rfl, rfl, ?_⟩
  · intro hlt
    simp only [exportFilename, hd, unpack_shader_header]
    rw [if_neg (by omega)]
  · intro hge
    simp only [exportFilename, hd, unpack_shader_header]
    rw [if_pos hge]
  · intro t ht
    have h0 : (t == 0) = false := by simp only [beq_eq_false_iff_ne]; omega
    have h1 : (t == 1) = false := by simp only [beq_eq_false_iff_ne]; omega
    have h2 : (t == 2) = false := by simp only [beq_eq_false_iff_ne]; omega
    unfold typeLabel shader_type_names
    simp only [List.lookup, h0, h1, h2]

theorem claim_C8_witness :
    24 ≤ (toLE 4 SHADER_HEADER_MAGIC ++ toLE 4 2 ++ toLE 8 0x1111 ++ toLE 8 0x2222).length ∧
    exportFilename entPix = Except.ok "PIXEL_0000000000001111_0000000000002222.bin" := by
  refine ⟨by decide, ?_⟩
  have h := (claim_C8 entPix
    (toLE 4 SHADER_HEADER_MAGIC ++ toLE 4 2 ++ toLE 8 0x1111 ++ toLE 8 0x2222) rfl).2.1
    (by decide)
  rw [h]
  rfl

/-- Claim C9 (confirmed): when the decoded table holds no sentinel-keyed
entry, the closing normalization's mapping lookup fails and load returns
the lookup error instead of a container; consequently every successfully
loaded container's mapping contains the sentinel key. -/
theorem claim_C9 :
    (∀ (d : List Nat) (c0 : ShaderCache), loadRaw d = Except.ok c0 →
      hasKey sentinelKey c0.entries = false →
      load d = Except.error CacheError.keyError) ∧
    (∀ (d : List Nat) (c : ShaderCache), load d = Except.ok c →
      hasKey sentinelKey c.entries = true) := by
  constructor
  · intro d c0 hlr hno
    unfold load
    rw [hlr]
    show update_header c0 = _
    unfold update_header
    rw [hno]
    rw [if_neg Bool.false_ne_true]
  · intro d c h
    obtain ⟨c0, _, hk, rfl⟩ := load_inv h
    rw [hasKey_updateHeaderFn]
    exact hk

theorem claim_C9_witness :
    loadRaw d9bytes = Except.ok d9cache ∧
    hasKey sentinelKey d9cache.entries = false ∧
    load d9bytes = Except.error CacheError.keyError ∧
    load minimalBytes = Except.ok cacheM ∧
    hasKey sentinelKey cacheM.entries = true := by
  refine ⟨rfl, by decide, ?_, rfl, ?_⟩
  · exact claim_C9.1 d9bytes d9cache rfl (by decide)
  · exact claim_C9.2 minimalBytes cacheM rfl

/-- Claim C10 (corrected; counterexample `claim_C10_counterexample`): the
sentinel key is present in every selected file, yet the resulting
container does not hold the last-listed file's sentinel entry — the
closing normalization rewrites it for the combined mapping. -/
theorem claim_C10_counterexample :
    ((openCaches cacheA [cacheS]).toOption.bind
      (fun c2 => alookup sentinelKey c2.entries)) ≠
      lastHolder sentinelKey cacheA [cacheS] := by
  decide

/-- Claim C10 (amended): opening several files together applies
`entries.update` per later file, so for every NON-SENTINEL key the
resulting container holds the entry of the last-listed file containing
that key — later files overwrite earlier ones, unlike merge; the sentinel
entry is instead renormalized for the combined mapping. -/
theorem claim_C10 (first : ShaderCache) (rest : List ShaderCache) (k : Nat × Nat)
    (hk : k ≠ sentinelKey) (hsf : hasKey sentinelKey first.entries = true)
    (hnd : ∀ c ∈ rest, nodupKeysB c.entries = true) :
    (openCaches first rest).toOption.bind (fun c2 => alookup k c2.entries) =
      lastHolder k first rest := by
  have hks : hasKey sentinelKey
      (rest.foldl (fun a c => odUpdate a c.entries) first.entries) = true :=
    hasKey_foldl_odUpdate rest first.entries hsf
  unfold openCaches update_header
  rw [hks, if_pos rfl]
  simp only [Except.toOption, Option.bind]
  rw [alookup_updateHeaderFn_ne hk]
  exact foldl_odUpdate_lookup rest hnd first.entries

theorem claim_C10_witness :
    (50, 51) ≠ sentinelKey ∧ hasKey sentinelKey cacheA.entries = true ∧
    (∀ c ∈ [cacheS], nodupKeysB c.entries = true) ∧
    (openCaches cacheA [cacheS]).toOption.bind
      (fun c2 => alookup (50, 51) c2.entries) = lastHolder (50, 51) cacheA [cacheS] :=
  ⟨by decide, by decide, by decide,
    claim_C10 cacheA [cacheS] (50, 51) (by decide) (by decide) (by decide)⟩

end CemuShader
